import Mathlib

/-!
RecipeBook: a name-ordered binary search tree of recipes.

A shallow embedding of `RecipeBook.hpp` / `RecipeBook.cpp`.

* `std::string` is `String`; its comparison operators are the lexicographic
  three-way comparison `strCompare` of the character sequences.
* `int` is 32 bits wide and `std::size_t` 64.  The `int` operations of
  `buildBalancedTree` and the `int` counter of `calculateMasteryPoints` go
  through `intResult`: a result outside the `int` range is undefined in C++
  and makes the function return `none`.  The conversion whose result C++
  defines by wrapping (`size() - 1` in `size_t`, narrowed to the `int`
  parameter of `buildBalancedTree`) is modelled with explicit `% 2 ^ w`.
* `std::shared_ptr<BinaryNode<Recipe>>` is `NodePtr`: either `null` or a node
  owning an item and two child pointers.
* A `RecipeBook` object is its root pointer; mutating methods return the new
  object state next to their C++ return value.
* `std::cout` is a `String` that the display functions extend.
* `BinarySearchTree.hpp` is not part of the sources; `add` and `remove` are
  modelled from the specification's description of the ordered tree.
-/

namespace RecipeBookModel

/-! ## Strings -/

/-- Three-way lexicographic comparison of two character sequences, the
semantics of `std::string::compare`: negative, zero or positive. -/
def strCompare : List Char → List Char → Int
  | [], [] => 0
  | [], _ :: _ => -1
  | _ :: _, [] => 1
  | a :: as, b :: bs =>
    if a.val.toNat < b.val.toNat then -1
    else if b.val.toNat < a.val.toNat then 1
    else strCompare as bs

/-- The `operator==` of `std::string`. -/
def strEq (a b : String) : Bool := decide (strCompare a.data b.data = 0)

/-- The `operator<` of `std::string`. -/
def strLess (a b : String) : Bool := decide (strCompare a.data b.data < 0)

/-- The `operator>` of `std::string`. -/
def strGreater (a b : String) : Bool := decide (strCompare a.data b.data > 0)

/-! ## Recipe -/

/-- The `Recipe` struct of `RecipeBook.hpp`. -/
structure Recipe where
  name_ : String
  difficulty_level_ : Int
  description_ : String
  mastered_ : Bool
deriving DecidableEq

namespace Recipe

/-- Default constructor: empty strings, difficulty 0, not mastered. -/
def mkDefault : Recipe := ⟨"", 0, "", false⟩

/-- Equality operator `operator==`: compares `name_` only. -/
def opEq (self other : Recipe) : Bool := strEq self.name_ other.name_

/-- Less-than operator `operator<`: compares `name_` only. -/
def opLt (self other : Recipe) : Bool := strLess self.name_ other.name_

/-- Greater-than operator `operator>`: compares `name_` only. -/
def opGt (self other : Recipe) : Bool := strGreater self.name_ other.name_

/-- Stream insertion `operator<<`: appends the four labelled lines to `os`. -/
def print (os : String) (recipe : Recipe) : String :=
  os ++ "Name: " ++ recipe.name_ ++ "\n"
     ++ "Difficulty Level: " ++ toString recipe.difficulty_level_ ++ "\n"
     ++ "Description: " ++ recipe.description_ ++ "\n"
     ++ "Mastered: " ++ (if recipe.mastered_ then "Yes" else "No") ++ "\n"

end Recipe

/-! ## Nodes and the book -/

/-- A `std::shared_ptr<BinaryNode<Recipe>>`: `null` is `nullptr`, `node` is a
pointer to a node holding an item, a left child pointer and a right child
pointer. -/
inductive NodePtr where
  | null : NodePtr
  | node (item : Recipe) (left right : NodePtr) : NodePtr
deriving DecidableEq

/-- The state of a `RecipeBook` object: the root pointer it inherits from
`BinarySearchTree<Recipe>`. -/
structure RecipeBook where
  root : NodePtr
deriving DecidableEq

/-- Default constructor: the empty book. -/
def RecipeBook.empty : RecipeBook := ⟨.null⟩

/-! ## Ordered tree operations (not among the sources) -/

/-- Modelled from the spec: `BinarySearchTree<Recipe>::add`, declared in
`BinarySearchTree.hpp` (absent).  Section 4.1 `insert(value)`: descends from
the root comparing `value` against each node's value with the ordering
relation; at a null child slot, creates a new node holding `value`; no
uniqueness check. -/
def BinarySearchTree.add : NodePtr → Recipe → NodePtr
  | .null, value => .node value .null .null
  | .node item left right, value =>
    if value.opLt item then .node item (BinarySearchTree.add left value) right
    else .node item left (BinarySearchTree.add right value)

/-- Modelled from the spec: the in-order successor step of section 4.1
`remove`: detaches the leftmost node of the non-empty subtree
`node item left right`, returning its item and the remaining subtree (the
detached node's right child is spliced into its slot). -/
def BinarySearchTree.removeLeftmost : Recipe → NodePtr → NodePtr → Recipe × NodePtr
  | item, .null, right => (item, right)
  | item, .node litem ll lr, right =>
    let res := BinarySearchTree.removeLeftmost litem ll lr
    (res.1, .node item res.2 right)

/-- Modelled from the spec: removal of a located node, section 4.1 `remove`:
with at most one child the child is spliced into the parent's slot; with two
children the node's value is replaced by that of its in-order successor and
that successor node is removed from the right subtree. -/
def BinarySearchTree.removeNode : Recipe → NodePtr → NodePtr → NodePtr
  | _, .null, right => right
  | _, left, .null => left
  | _, left, .node ritem rl rr =>
    let res := BinarySearchTree.removeLeftmost ritem rl rr
    .node res.1 left res.2

/-- Modelled from the spec: `BinarySearchTree<Recipe>::remove`, declared in
`BinarySearchTree.hpp` (absent).  Section 4.1 `remove(key)`: locates the node
by the search descent; if absent, reports failure; otherwise removes the
located node. -/
def BinarySearchTree.remove : NodePtr → Recipe → Bool × NodePtr
  | .null, _ => (false, .null)
  | .node item left right, key =>
    if item.opEq key then (true, BinarySearchTree.removeNode item left right)
    else if item.opGt key then
      let res := BinarySearchTree.remove left key
      (res.1, .node item res.2 right)
    else
      let res := BinarySearchTree.remove right key
      (res.1, .node item left res.2)

/-! ## RecipeBook.cpp -/

/-- The free function `findRecipeHelper`: binary search for `target`. -/
def findRecipeHelper : NodePtr → Recipe → NodePtr
  | .null, _ => .null
  | .node item left right, target =>
    if item.opEq target then .node item left right
    else if item.opGt target then findRecipeHelper left target
    else findRecipeHelper right target

namespace RecipeBook

/-- `RecipeBook::findRecipe`: searches with a key-only recipe. -/
def findRecipe (book : RecipeBook) (name : String) : NodePtr :=
  let target : Recipe := { Recipe.mkDefault with name_ := name }
  findRecipeHelper book.root target

/-- `RecipeBook::addRecipe`: returns `false` and changes nothing when the
name is found, otherwise adds and returns `true`. -/
def addRecipe (book : RecipeBook) (recipe : Recipe) : Bool × RecipeBook :=
  if book.findRecipe recipe.name_ ≠ .null then (false, book)
  else (true, ⟨BinarySearchTree.add book.root recipe⟩)

/-- `RecipeBook::removeRecipe`: removes with a key-only recipe. -/
def removeRecipe (book : RecipeBook) (name : String) : Bool × RecipeBook :=
  let recipe : Recipe := { Recipe.mkDefault with name_ := name }
  let res := BinarySearchTree.remove book.root recipe
  (res.1, ⟨res.2⟩)

/-- `RecipeBook::clear`: `clearSubtree` only resets by-value copies of the
pointers it is handed, so its net effect is none; `setRoot(nullptr)` empties
the book. -/
def clear (_book : RecipeBook) : RecipeBook := ⟨.null⟩

end RecipeBook

/-- Width of `std::size_t` in bits. -/
def sizeBits : Nat := 64

/-- Width of `int` in bits. -/
def intBits : Nat := 32

/-- Outcome of a signed `int` operation whose mathematical result is `x`:
the value itself when an `int` can hold it, `none` when the operation
overflows, which C++ leaves undefined. -/
def intResult (x : Int) : Option Int :=
  if -(2 ^ (intBits - 1)) ≤ x ∧ x < 2 ^ (intBits - 1) then some x else none

/-- The free function `calculateMasteryPointsHelper`: in-order walk that
increments the `int` counter passed by reference; returns the counter's new
value, or `none` when an increment overflows. -/
def calculateMasteryPointsHelper : NodePtr → Recipe → Int → Option Int
  | .null, _, masteryPoints => some masteryPoints
  | .node item left right, target, masteryPoints =>
    match calculateMasteryPointsHelper left target masteryPoints with
    | none => none
    | some afterLeft =>
      if item.difficulty_level_ < target.difficulty_level_ && !item.mastered_ then
        match intResult (afterLeft + 1) with
        | none => none
        | some afterNode => calculateMasteryPointsHelper right target afterNode
      else calculateMasteryPointsHelper right target afterLeft

/-- `RecipeBook::calculateMasteryPoints`: the `int` it returns, or `none`
when the counter overflows. -/
def RecipeBook.calculateMasteryPoints (book : RecipeBook) (name : String) : Option Int :=
  match book.findRecipe name with
  | .null => some (-1)
  | .node item _ _ =>
    if item.mastered_ then some 0
    else calculateMasteryPointsHelper book.root item 1

/-- The free function `collectRecipes`: in-order walk pushing every item to
the back of the vector; returns the vector's new contents. -/
def collectRecipes : NodePtr → List Recipe → List Recipe
  | .null, recipes => recipes
  | .node item left right, recipes =>
    collectRecipes right (collectRecipes left recipes ++ [item])

/-- The expression `size - 1` in `std::size_t` arithmetic. -/
def sizeMinusOne (size : Nat) : Nat := (size + 2 ^ sizeBits - 1) % 2 ^ sizeBits

/-- Conversion of a `std::size_t` value to `int` (two's complement
narrowing). -/
def narrowToInt (x : Nat) : Int :=
  if x % 2 ^ intBits < 2 ^ (intBits - 1) then ((x % 2 ^ intBits : Nat) : Int)
  else ((x % 2 ^ intBits : Nat) : Int) - 2 ^ intBits

/-- Body of `RecipeBook::buildBalancedTree`, recursing structurally on a
bound `depth` for the nesting of calls: adds the middle element of
`recipes[start..end]`, then recurses on the left part, then on the right
part.  Every `int` operation (`end - start`, `start + ... / 2`, `mid - 1`,
`mid + 1`) goes through `intResult`.  The result is `none` when an `int`
operation overflows, when `recipes[mid]` would read outside the vector, or
when the nesting would exceed `depth`. -/
def RecipeBook.buildBalancedTreeAux :
    Nat → RecipeBook → List Recipe → Int → Int → Option RecipeBook
  | depth, book, recipes, start, end_ =>
    if start > end_ then some book
    else
      match depth with
      | 0 => none
      | depth + 1 =>
        match intResult (end_ - start) with
        | none => none
        | some diff =>
          match intResult (start + Int.tdiv diff 2) with
          | none => none
          | some mid =>
            if mid < 0 then none
            else
              match recipes.get? mid.toNat with
              | none => none
              | some recipe =>
                match intResult (mid - 1) with
                | none => none
                | some leftEnd =>
                  match RecipeBook.buildBalancedTreeAux depth (book.addRecipe recipe).2
                      recipes start leftEnd with
                  | none => none
                  | some afterLeft =>
                    match intResult (mid + 1) with
                    | none => none
                    | some rightStart =>
                      RecipeBook.buildBalancedTreeAux depth afterLeft recipes rightStart end_

/-- The body of `RecipeBook::buildBalancedTree` once more, with a ghost log
next to the book: each call `this->addRecipe(recipes[mid])` appends its
index `mid` to the log.  Nothing else differs from
`buildBalancedTreeAux`. -/
def RecipeBook.buildBalancedTreeLogAux :
    Nat → RecipeBook × List Int → List Recipe → Int → Int → Option (RecipeBook × List Int)
  | depth, state, recipes, start, end_ =>
    if start > end_ then some state
    else
      match depth with
      | 0 => none
      | depth + 1 =>
        match intResult (end_ - start) with
        | none => none
        | some diff =>
          match intResult (start + Int.tdiv diff 2) with
          | none => none
          | some mid =>
            if mid < 0 then none
            else
              match recipes.get? mid.toNat with
              | none => none
              | some recipe =>
                match intResult (mid - 1) with
                | none => none
                | some leftEnd =>
                  match RecipeBook.buildBalancedTreeLogAux depth
                      ((state.1.addRecipe recipe).2, state.2 ++ [mid]) recipes start leftEnd with
                  | none => none
                  | some afterLeft =>
                    match intResult (mid + 1) with
                    | none => none
                    | some rightStart =>
                      RecipeBook.buildBalancedTreeLogAux depth afterLeft recipes rightStart end_

/-- `RecipeBook::buildBalancedTree` with the ghost log of its `addRecipe`
calls, started empty. -/
def RecipeBook.buildBalancedTreeLog (book : RecipeBook) (recipes : List Recipe)
    (start end_ : Int) : Option (RecipeBook × List Int) :=
  RecipeBook.buildBalancedTreeLogAux (end_ - start + 1).toNat (book, []) recipes start end_

/-- `RecipeBook::buildBalancedTree`.  Each nested call works on a span at
most half as long, so the span's length `end - start + 1` bounds the
nesting. -/
def RecipeBook.buildBalancedTree (book : RecipeBook) (recipes : List Recipe)
    (start end_ : Int) : Option RecipeBook :=
  RecipeBook.buildBalancedTreeAux (end_ - start + 1).toNat book recipes start end_

/-- `RecipeBook::balance`: collect in order, clear, rebuild from the middle
outwards. -/
def RecipeBook.balance (book : RecipeBook) : Option RecipeBook :=
  let sortedRecipes := collectRecipes book.root []
  book.clear.buildBalancedTree sortedRecipes 0
    (narrowToInt (sizeMinusOne sortedRecipes.length))

/-- The free function `displayPreorderHelper`: writes the node's item and a
line end to `std::cout`, then displays the left and the right subtree. -/
def displayPreorderHelper : NodePtr → String → String
  | .null, cout => cout
  | .node item left right, cout =>
    displayPreorderHelper right
      (displayPreorderHelper left (Recipe.print cout item ++ "\n"))

/-- `RecipeBook::preorderDisplay`, a `const` method: returns the book after
the call and the new contents of `std::cout`. -/
def RecipeBook.preorderDisplay (book : RecipeBook) (cout : String) : RecipeBook × String :=
  (book, displayPreorderHelper book.root cout)

/-- Parameterized constructor `RecipeBook(const std::string& filename)`, on
the records parsed from the data lines of the file (header line already
skipped): each one is handed to `add`, in file order. -/
def RecipeBook.fromRecords (records : List Recipe) : RecipeBook :=
  ⟨records.foldl BinarySearchTree.add .null⟩

/-! ## Specification vocabulary -/

/-- In-order traversal (left, node, right) of the tree under a pointer. -/
def inorder : NodePtr → List Recipe
  | .null => []
  | .node item left right => inorder left ++ item :: inorder right

/-- Pre-order traversal (node, left, right) of the tree under a pointer. -/
def preorder : NodePtr → List Recipe
  | .null => []
  | .node item left right => item :: (preorder left ++ preorder right)

/-- Names stored in a book, in in-order sequence. -/
def RecipeBook.names (book : RecipeBook) : List String :=
  (inorder book.root).map Recipe.name_

/-- Number of nodes on the longest downward path from a pointer. -/
def height : NodePtr → Nat
  | .null => 0
  | .node _ left right => max (height left) (height right) + 1

/-- The ordered-tree invariant of the data model: at every node, every
record of the left subtree compares less-than the node's record and every
record of the right subtree compares greater-than it. -/
def IsBST : NodePtr → Prop
  | .null => True
  | .node item left right =>
    (∀ x ∈ inorder left, x.opLt item = true) ∧
    (∀ x ∈ inorder right, x.opGt item = true) ∧ IsBST left ∧ IsBST right

/-- Decision procedure for `IsBST`. -/
instance IsBST.instDecidable : (t : NodePtr) → Decidable (IsBST t)
  | .null => isTrue trivial
  | .node _ left right =>
    have := IsBST.instDecidable left
    have := IsBST.instDecidable right
    inferInstanceAs (Decidable (_ ∧ _ ∧ _ ∧ _))

/-- The search-tree ordering that tolerates equal names: at every node, no
record of the left subtree compares greater-than the node's record and no
record of the right subtree compares less-than it. -/
def IsOrdered : NodePtr → Prop
  | .null => True
  | .node item left right =>
    (∀ x ∈ inorder left, x.opGt item = false) ∧
    (∀ x ∈ inorder right, x.opLt item = false) ∧ IsOrdered left ∧ IsOrdered right

/-- Decision procedure for `IsOrdered`. -/
instance IsOrdered.instDecidable : (t : NodePtr) → Decidable (IsOrdered t)
  | .null => isTrue trivial
  | .node _ left right =>
    have := IsOrdered.instDecidable left
    have := IsOrdered.instDecidable right
    inferInstanceAs (Decidable (_ ∧ _ ∧ _ ∧ _))

/-- Height balance: at every node the heights of the two subtrees differ by
at most 1. -/
def HeightBalanced : NodePtr → Prop
  | .null => True
  | .node _ left right =>
    (height left ≤ height right + 1 ∧ height right ≤ height left + 1) ∧
    HeightBalanced left ∧ HeightBalanced right

/-- Decision procedure for `HeightBalanced`. -/
instance HeightBalanced.instDecidable : (t : NodePtr) → Decidable (HeightBalanced t)
  | .null => isTrue trivial
  | .node _ left right =>
    have := HeightBalanced.instDecidable left
    have := HeightBalanced.instDecidable right
    inferInstanceAs (Decidable (_ ∧ _ ∧ _))

/-- The display format of one record: the four labelled lines followed by a
blank line. -/
def recordBlock (r : Recipe) : String :=
  "Name: " ++ r.name_ ++ "\n" ++
  "Difficulty Level: " ++ toString r.difficulty_level_ ++ "\n" ++
  "Description: " ++ r.description_ ++ "\n" ++
  "Mastered: " ++ (if r.mastered_ then "Yes" else "No") ++ "\n" ++
  "\n"

/-- The condition under which `calculateMasteryPoints` counts a stored
record for `target`: strictly lower difficulty and not mastered. -/
def countsToward (target x : Recipe) : Bool :=
  decide (x.difficulty_level_ < target.difficulty_level_) && !x.mastered_

/-- The tree on `recipes[start..end]` with the middle element (lower median)
at the root, the same construction on the part before it as left subtree and
on the part after it as right subtree; `depth` bounds the nesting.  The
arithmetic is that of the integers. -/
def medianTree : Nat → List Recipe → Int → Int → NodePtr
  | 0, _, _, _ => .null
  | depth + 1, recipes, start, end_ =>
    if start > end_ then .null
    else
      match recipes.get? (start + (end_ - start) / 2).toNat with
      | none => .null
      | some recipe =>
        .node recipe (medianTree depth recipes start (start + (end_ - start) / 2 - 1))
          (medianTree depth recipes (start + (end_ - start) / 2 + 1) end_)

/-- Hands the records of a list to `addRecipe` one after the other. -/
def RecipeBook.addRecipes (book : RecipeBook) (records : List Recipe) : RecipeBook :=
  records.foldl (fun b r => (b.addRecipe r).2) book

/-- Books obtained from the empty book by finitely many `addRecipe`,
`removeRecipe` and `balance` calls. -/
inductive Reachable : RecipeBook → Prop
  | empty : Reachable RecipeBook.empty
  | addRecipe (book : RecipeBook) (recipe : Recipe) :
      Reachable book → Reachable (book.addRecipe recipe).2
  | removeRecipe (book : RecipeBook) (name : String) :
      Reachable book → Reachable (book.removeRecipe name).2
  | balance (book after : RecipeBook) :
      Reachable book → book.balance = some after → Reachable after

/-- Books that the public operations can produce: the two constructors
followed by finitely many `addRecipe`, `removeRecipe`, `clear` and `balance`
calls. -/
inductive Producible : RecipeBook → Prop
  | empty : Producible RecipeBook.empty
  | fromRecords (records : List Recipe) : Producible (RecipeBook.fromRecords records)
  | addRecipe (book : RecipeBook) (recipe : Recipe) :
      Producible book → Producible (book.addRecipe recipe).2
  | removeRecipe (book : RecipeBook) (name : String) :
      Producible book → Producible (book.removeRecipe name).2
  | clear (book : RecipeBook) : Producible book → Producible book.clear
  | balance (book after : RecipeBook) :
      Producible book → book.balance = some after → Producible after

/-- Books obtained from the empty book by finitely many `addRecipe` calls. -/
inductive AddReachable : RecipeBook → Prop
  | empty : AddReachable RecipeBook.empty
  | addRecipe (book : RecipeBook) (recipe : Recipe) :
      AddReachable book → AddReachable (book.addRecipe recipe).2

/-- BST order based on difficulty level, in the words of the header comment
of `addRecipe`: at every node, the records of the left subtree have a lower
difficulty level and the records of the right subtree a higher one. -/
def IsDifficultyBST : NodePtr → Prop
  | .null => True
  | .node item left right =>
    (∀ x ∈ inorder left, x.difficulty_level_ < item.difficulty_level_) ∧
    (∀ x ∈ inorder right, item.difficulty_level_ < x.difficulty_level_) ∧
    IsDifficultyBST left ∧ IsDifficultyBST right

/-- Decision procedure for `IsDifficultyBST`. -/
instance IsDifficultyBST.instDecidable : (t : NodePtr) → Decidable (IsDifficultyBST t)
  | .null => isTrue trivial
  | .node _ left right =>
    have := IsDifficultyBST.instDecidable left
    have := IsDifficultyBST.instDecidable right
    inferInstanceAs (Decidable (_ ∧ _ ∧ _ ∧ _))

/-- The indices `mid` at which `buildBalancedTree(recipes, start, end)` reads
`recipes[mid]` and calls `addRecipe`, in the order of the calls: `mid` itself,
then the indices of the call on `start .. mid - 1`, then those of the call on
`mid + 1 .. end`; `depth` bounds the nesting as in `buildBalancedTreeAux`.
The arithmetic is that of the integers, which is the arithmetic of the code
as long as no `int` operation overflows. -/
def midOrderAux : Nat → Int → Int → List Int
  | depth, start, end_ =>
    if start > end_ then []
    else
      match depth with
      | 0 => []
      | depth + 1 =>
        let mid := start + Int.tdiv (end_ - start) 2
        mid :: (midOrderAux depth start (mid - 1) ++ midOrderAux depth (mid + 1) end_)

/-- The indices read by `buildBalancedTree(recipes, start, end)`, in order,
with the nesting bound that `buildBalancedTree` uses. -/
def midOrder (start end_ : Int) : List Int :=
  midOrderAux (end_ - start + 1).toNat start end_

/-! ## Sample data -/

/-- Recipe `A` of the mastery-points example: difficulty 1, mastered. -/
def sampleA : Recipe := ⟨"A", 1, "first", true⟩

/-- Recipe `B` of the mastery-points example: difficulty 2, not mastered. -/
def sampleB : Recipe := ⟨"B", 2, "second", false⟩

/-- Recipe `C` of the mastery-points example: difficulty 3, not mastered. -/
def sampleC : Recipe := ⟨"C", 3, "third", false⟩

/-- A second record named `C`, differing from `sampleC` in every other field. -/
def sampleCAgain : Recipe := ⟨"C", 9, "again", true⟩

/-- A record whose name `Ba` sorts between `B` and `C`. -/
def sampleNew : Recipe := ⟨"Ba", 5, "new", false⟩

/-- The book holding `B` at the root, `A` to its left and `C` to its right. -/
def sampleBook : RecipeBook :=
  ⟨.node sampleB (.node sampleA .null .null) (.node sampleC .null .null)⟩

/-- The records `A`, `B`, `C` added one after the other to the empty book: a
chain leaning to the right. -/
def sampleChain : RecipeBook :=
  (((RecipeBook.empty.addRecipe sampleA).2.addRecipe sampleB).2.addRecipe sampleC).2

/-- A second record named `A`. -/
def sampleAAgain : Recipe := ⟨"A", 4, "first again", false⟩

/-- The book the file constructor builds from the data lines `A`, `A`, `B`,
`C`: both records named `A` are stored. -/
def duplicateBook : RecipeBook :=
  RecipeBook.fromRecords [sampleA, sampleAAgain, sampleB, sampleC]

/-- The record whose name is the characters of `path` followed by `m`. -/
def pathRecipe (path : List Char) : Recipe := ⟨String.mk (path ++ ['m']), 0, "", false⟩

/-- The complete tree of height `h` whose names spell the way down from the
root: the node reached by `path` is named `path` followed by `m`, the names
in its left subtree continue `path` with `l` and those in its right subtree
with `r`, so that the in-order sequence is in lexicographic order. -/
def completeTree : List Char → Nat → NodePtr
  | _, 0 => .null
  | path, h + 1 =>
    .node (pathRecipe path) (completeTree (path ++ ['l']) h) (completeTree (path ++ ['r']) h)

/-- A book of `2 ^ 31 + 1` records with pairwise distinct names of at most 32
characters: the root `m`, a complete left subtree of height 31 and a single
node to the right. -/
def hugeBook : RecipeBook :=
  ⟨.node (pathRecipe []) (completeTree ['l'] 31) (completeTree ['r'] 1)⟩

/-- A second record named `m`. -/
def rootAgain : Recipe := ⟨"m", 1, "again", true⟩

/-- A book of `2 ^ 31 + 1` records in which the name `m` is stored twice: the
root `m`, a complete left subtree of height 31, and a second record named `m`
to the right, where `add` puts an equal name. -/
def hugeDuplicateBook : RecipeBook :=
  ⟨.node (pathRecipe []) (completeTree ['l'] 31) (.node rootAgain .null .null)⟩

/-- A record whose name `Aa` sorts between `A` and `B` and whose difficulty
is above that of `B`. -/
def sampleHard : Recipe := ⟨"Aa", 7, "hard", false⟩

/-- The record named `m` with difficulty 1, not mastered. -/
def topRecipe : Recipe := ⟨"m", 1, "", false⟩

/-- A book of exactly `2 ^ 31` records with pairwise distinct names: the
root `m` of difficulty 1 and, to its left, a complete subtree of height 31
whose records have difficulty 0 and are not mastered. -/
def fullBook : RecipeBook := ⟨.node topRecipe (completeTree ['l'] 31) .null⟩

/-- The tree of the pre-order example: root `M`, left child `B`, right child
`T`. -/
def displayBook : RecipeBook :=
  ⟨.node ⟨"M", 2, "middle", false⟩ (.node ⟨"B", -1, "left", true⟩ .null .null)
    (.node ⟨"T", 30, "right", false⟩ .null .null)⟩

/-! ## String comparison agrees with the lexicographic order -/

theorem char_lt_iff (a b : Char) : a < b ↔ a.val.toNat < b.val.toNat := Iff.rfl

theorem char_eq_of_toNat (a b : Char) (h1 : ¬ a.val.toNat < b.val.toNat)
    (h2 : ¬ b.val.toNat < a.val.toNat) : a = b := by
  apply Char.ext
  apply UInt32.ext
  omega

theorem strCompare_self (a : List Char) : strCompare a a = 0 := by
  induction a with
  | nil => rfl
  | cons x xs ih => simp [strCompare, ih]

theorem strCompare_eq_zero (a b : List Char) : strCompare a b = 0 ↔ a = b := by
  constructor
  · induction a generalizing b with
    | nil => cases b <;> simp [strCompare]
    | cons x xs ih =>
      cases b with
      | nil => simp [strCompare]
      | cons y ys =>
        simp only [strCompare]
        split_ifs with h1 h2
        · simp
        · simp
        · intro h
          rw [char_eq_of_toNat x y h1 h2, ih ys h]
  · rintro rfl
    exact strCompare_self a

theorem strCompare_lt_iff (a b : List Char) : strCompare a b < 0 ↔ a < b := by
  induction a generalizing b with
  | nil =>
    cases b with
    | nil => simp [strCompare]
    | cons y ys => simp [strCompare, List.nil_lt_cons]
  | cons x xs ih =>
    cases b with
    | nil => simp [strCompare]
    | cons y ys =>
      simp only [strCompare]
      split_ifs with h1 h2
      · simp only [Int.reduceNeg, Int.neg_neg_iff_pos, zero_lt_one, true_iff]
        exact List.Lex.rel ((char_lt_iff x y).2 h1)
      · constructor
        · intro h; omega
        · intro h
          exact absurd h (lt_asymm (List.Lex.rel ((char_lt_iff y x).2 h2)))
      · have hxy := char_eq_of_toNat x y h1 h2
        subst hxy
        rw [ih ys]
        exact (List.Lex.cons_iff).symm

theorem strCompare_gt_iff (a b : List Char) : strCompare a b > 0 ↔ b < a := by
  rcases lt_trichotomy a b with h | h | h
  · have h1 := (strCompare_lt_iff a b).2 h
    constructor
    · intro h2; omega
    · intro h2; exact absurd h (lt_asymm h2)
  · subst h
    simp [strCompare_self]
  · constructor
    · intro _; exact h
    · intro _
      have h1 : ¬ strCompare a b < 0 := fun h2 => lt_asymm h ((strCompare_lt_iff a b).1 h2)
      have h2 : strCompare a b ≠ 0 := fun h3 => (ne_of_gt h) ((strCompare_eq_zero a b).1 h3)
      omega

theorem strEq_iff (a b : String) : strEq a b = true ↔ a = b := by
  unfold strEq
  rw [decide_eq_true_iff, strCompare_eq_zero]
  exact ⟨String.ext, fun h => by rw [h]⟩

theorem strLess_iff (a b : String) : strLess a b = true ↔ a < b := by
  unfold strLess
  rw [decide_eq_true_iff, strCompare_lt_iff]
  exact String.lt_iff_toList_lt.symm

theorem strGreater_iff (a b : String) : strGreater a b = true ↔ b < a := by
  unfold strGreater
  rw [decide_eq_true_iff, strCompare_gt_iff]
  exact String.lt_iff_toList_lt.symm

/-! ## Comparison operators, traversal and search -/

theorem opEq_iff (a b : Recipe) : a.opEq b = true ↔ a.name_ = b.name_ :=
  strEq_iff a.name_ b.name_

theorem opLt_iff (a b : Recipe) : a.opLt b = true ↔ a.name_ < b.name_ :=
  strLess_iff a.name_ b.name_

theorem opGt_iff (a b : Recipe) : a.opGt b = true ↔ b.name_ < a.name_ :=
  strGreater_iff a.name_ b.name_

theorem opLt_false_iff (a b : Recipe) : a.opLt b = false ↔ b.name_ ≤ a.name_ := by
  rw [← Bool.not_eq_true, opLt_iff, not_lt]

theorem opGt_false_iff (a b : Recipe) : a.opGt b = false ↔ a.name_ ≤ b.name_ := by
  rw [← Bool.not_eq_true, opGt_iff, not_lt]

theorem collectRecipes_eq (t : NodePtr) (recipes : List Recipe) :
    collectRecipes t recipes = recipes ++ inorder t := by
  induction t generalizing recipes with
  | null => simp [collectRecipes, inorder]
  | node item left right ihl ihr =>
    simp [collectRecipes, inorder, ihl, ihr]

theorem isBST_isOrdered (t : NodePtr) (h : IsBST t) : IsOrdered t := by
  induction t with
  | null => trivial
  | node item left right ihl ihr =>
    obtain ⟨hl, hr, hbl, hbr⟩ := h
    refine ⟨?_, ?_, ihl hbl, ihr hbr⟩
    · intro x hx
      exact (opGt_false_iff x item).2 (le_of_lt ((opLt_iff x item).1 (hl x hx)))
    · intro x hx
      exact (opLt_false_iff x item).2 (le_of_lt ((opGt_iff x item).1 (hr x hx)))

/-- Whatever node the search returns holds the searched name and is a node
of the tree. -/
theorem findRecipeHelper_sound (t : NodePtr) (target item : Recipe) (l r : NodePtr)
    (h : findRecipeHelper t target = .node item l r) :
    item.name_ = target.name_ ∧ item ∈ inorder t := by
  induction t with
  | null => simp [findRecipeHelper] at h
  | node x left right ihl ihr =>
    simp only [findRecipeHelper] at h
    split_ifs at h with h1 h2
    · injection h with hx _ _
      subst hx
      exact ⟨(opEq_iff _ _).1 h1, by simp [inorder]⟩
    · have := ihl h
      exact ⟨this.1, by simp [inorder, this.2]⟩
    · have := ihr h
      exact ⟨this.1, by simp [inorder, this.2]⟩

/-- On an ordered tree the search finds every stored name. -/
theorem findRecipeHelper_complete (t : NodePtr) (target : Recipe) (ht : IsOrdered t)
    (h : ∃ x ∈ inorder t, x.name_ = target.name_) :
    findRecipeHelper t target ≠ .null := by
  induction t with
  | null => simp [inorder] at h
  | node item left right ihl ihr =>
    obtain ⟨hl, hr, hol, hor⟩ := ht
    simp only [findRecipeHelper]
    split_ifs with h1 h2
    · simp
    · apply ihl hol
      obtain ⟨x, hx, hxn⟩ := h
      simp only [inorder, List.mem_append, List.mem_cons] at hx
      rcases hx with hx | hx | hx
      · exact ⟨x, hx, hxn⟩
      · subst hx
        exact absurd ((opEq_iff _ _).2 hxn) h1
      · have h3 := (opLt_false_iff x item).1 (hr x hx)
        have h4 := (opGt_iff item target).1 h2
        rw [hxn] at h3
        exact absurd h4 (not_lt.2 h3)
    · apply ihr hor
      obtain ⟨x, hx, hxn⟩ := h
      simp only [inorder, List.mem_append, List.mem_cons] at hx
      rcases hx with hx | hx | hx
      · have h3 := (opGt_false_iff x item).1 (hl x hx)
        rw [hxn] at h3
        have h4 : ¬ target.name_ < item.name_ := fun h5 => h2 ((opGt_iff _ _).2 h5)
        have h5 : item.name_ ≠ target.name_ := fun h6 => h1 ((opEq_iff _ _).2 h6)
        exact absurd (lt_of_le_of_ne h3 (Ne.symm h5)) h4
      · subst hx
        exact absurd ((opEq_iff _ _).2 hxn) h1
      · exact ⟨x, hx, hxn⟩

theorem findRecipeHelper_cases (t : NodePtr) (target : Recipe) :
    findRecipeHelper t target = .null ∨
      ∃ item l r, findRecipeHelper t target = .node item l r := by
  cases h : findRecipeHelper t target with
  | null => exact Or.inl rfl
  | node item l r => exact Or.inr ⟨item, l, r, rfl⟩

theorem mem_names_iff (book : RecipeBook) (name : String) :
    name ∈ book.names ↔ ∃ x ∈ inorder book.root, x.name_ = name := by
  simp [RecipeBook.names]

theorem findRecipe_of_mem (book : RecipeBook) (name : String) (hbst : IsBST book.root)
    (hmem : name ∈ book.names) :
    ∃ item l r, book.findRecipe name = .node item l r ∧ item.name_ = name ∧
      item ∈ inorder book.root := by
  have hne : book.findRecipe name ≠ .null := by
    apply findRecipeHelper_complete _ _ (isBST_isOrdered _ hbst)
    exact (mem_names_iff book name).1 hmem
  rcases findRecipeHelper_cases book.root { Recipe.mkDefault with name_ := name } with h | h
  · exact absurd h hne
  · obtain ⟨item, l, r, h⟩ := h
    have hs := findRecipeHelper_sound _ _ _ _ _ h
    exact ⟨item, l, r, h, hs.1, hs.2⟩

theorem findRecipe_of_not_mem (book : RecipeBook) (name : String)
    (hmem : name ∉ book.names) : book.findRecipe name = .null := by
  rcases findRecipeHelper_cases book.root { Recipe.mkDefault with name_ := name } with h | h
  · exact h
  · obtain ⟨item, l, r, h⟩ := h
    have hs := findRecipeHelper_sound _ _ _ _ _ h
    exact absurd ((mem_names_iff book name).2 ⟨item, hs.2, hs.1⟩) hmem

/-- C5. On a book satisfying the name-ordered BST invariant, `findRecipe`
returns a node of the tree holding exactly the searched name when some stored
record has that name, and `nullptr` when none has; on the empty book it
returns `nullptr` for every name. -/
theorem findRecipe_correct (book : RecipeBook) (name : String) (hbst : IsBST book.root) :
    (name ∈ book.names →
        ∃ item l r, book.findRecipe name = .node item l r ∧ item.name_ = name ∧
          item ∈ inorder book.root) ∧
    (name ∉ book.names → book.findRecipe name = .null) ∧
    (∀ other : String, RecipeBook.empty.findRecipe other = .null) :=
  ⟨findRecipe_of_mem book name hbst, findRecipe_of_not_mem book name, fun _ => rfl⟩

/-- Witness for C5 on the sample book: `C` is stored and is found at the
node holding `sampleC`. -/
theorem findRecipe_correct_witness :
    IsBST sampleBook.root ∧ "C" ∈ sampleBook.names ∧
    sampleBook.findRecipe "C" = .node sampleC .null .null ∧
    (("C" ∈ sampleBook.names →
        ∃ item l r, sampleBook.findRecipe "C" = .node item l r ∧ item.name_ = "C" ∧
          item ∈ inorder sampleBook.root) ∧
    ("C" ∉ sampleBook.names → sampleBook.findRecipe "C" = .null) ∧
    (∀ other : String, RecipeBook.empty.findRecipe other = .null)) :=
  ⟨by decide, by decide, by decide, findRecipe_correct sampleBook "C" (by decide)⟩

/-! ## The BST invariant and the in-order sequence -/

theorem isBST_pairwise (t : NodePtr) (h : IsBST t) :
    (inorder t).Pairwise (fun a b => a.name_ < b.name_) := by
  induction t with
  | null => simp [inorder]
  | node item left right ihl ihr =>
    obtain ⟨hl, hr, hbl, hbr⟩ := h
    simp only [inorder]
    rw [List.pairwise_append, List.pairwise_cons]
    refine ⟨ihl hbl, ⟨fun b hb => (opGt_iff b item).1 (hr b hb), ihr hbr⟩, ?_⟩
    intro a ha b hb
    have h1 := (opLt_iff a item).1 (hl a ha)
    rcases List.mem_cons.1 hb with hb | hb
    · rw [hb]; exact h1
    · exact lt_trans h1 ((opGt_iff b item).1 (hr b hb))

theorem pairwise_isBST (t : NodePtr)
    (h : (inorder t).Pairwise (fun a b => a.name_ < b.name_)) : IsBST t := by
  induction t with
  | null => trivial
  | node item left right ihl ihr =>
    simp only [inorder] at h
    rw [List.pairwise_append, List.pairwise_cons] at h
    obtain ⟨h1, ⟨h2, h3⟩, h4⟩ := h
    refine ⟨?_, ?_, ihl h1, ihr h3⟩
    · intro x hx
      exact (opLt_iff x item).2 (h4 x hx item (List.mem_cons_self _ _))
    · intro x hx
      exact (opGt_iff x item).2 (h2 x hx)

theorem pairwise_name_unique (l : List Recipe)
    (h : l.Pairwise (fun a b => a.name_ < b.name_)) (x y : Recipe)
    (hx : x ∈ l) (hy : y ∈ l) (hn : x.name_ = y.name_) : x = y := by
  induction l with
  | nil => simp at hx
  | cons a l ih =>
    rw [List.pairwise_cons] at h
    rcases List.mem_cons.1 hx with hx | hx <;> rcases List.mem_cons.1 hy with hy | hy
    · rw [hx, hy]
    · have := h.1 y hy
      rw [← hx, hn] at this
      exact absurd this (lt_irrefl _)
    · have := h.1 x hx
      rw [← hy, hn] at this
      exact absurd this (lt_irrefl _)
    · exact ih h.2 hx hy

theorem isBST_name_unique (t : NodePtr) (h : IsBST t) (x y : Recipe)
    (hx : x ∈ inorder t) (hy : y ∈ inorder t) (hn : x.name_ = y.name_) : x = y :=
  pairwise_name_unique _ (isBST_pairwise t h) x y hx hy hn

theorem isBST_names_sorted (t : NodePtr) (h : IsBST t) :
    ((inorder t).map Recipe.name_).Sorted (· < ·) := by
  unfold List.Sorted
  rw [List.pairwise_map]
  exact isBST_pairwise t h

/-! ## Mastery points -/

theorem intResult_some (x : Int) (h1 : -2 ^ 31 ≤ x) (h2 : x < 2 ^ 31) :
    intResult x = some x := by
  unfold intResult intBits
  norm_num at h1 h2 ⊢
  intro h
  omega

theorem intResult_none (x : Int) (h : 2 ^ 31 ≤ x) : intResult x = none := by
  unfold intResult intBits
  norm_num at h ⊢
  intro _
  omega

theorem intResult_eq_some (x y : Int) (h : intResult x = some y) :
    y = x ∧ -2 ^ 31 ≤ x ∧ x < 2 ^ 31 := by
  unfold intResult intBits at h
  norm_num at h ⊢
  exact ⟨h.2.symm, h.1.1, h.1.2⟩

/-- The helper adds to the counter the number of records that count toward
the target, and is undefined exactly when that sum leaves the `int` range. -/
theorem calculateMasteryPointsHelper_eq (t : NodePtr) (target : Recipe) (points : Int)
    (h1 : -2 ^ 31 ≤ points) (h2 : points < 2 ^ 31) :
    calculateMasteryPointsHelper t target points =
      intResult (points + (((inorder t).countP (countsToward target) : Nat) : Int)) := by
  induction t generalizing points with
  | null =>
    simp only [calculateMasteryPointsHelper, inorder, List.countP_nil, Nat.cast_zero, add_zero]
    exact (intResult_some points h1 h2).symm
  | node item left right ihl ihr =>
    simp only [calculateMasteryPointsHelper, inorder, List.countP_append, List.countP_cons]
    rw [ihl points h1 h2]
    by_cases hleft : points + (((inorder left).countP (countsToward target) : Nat) : Int) < 2 ^ 31
    · rw [intResult_some _ (by omega) hleft]
      by_cases hc : countsToward target item = true
      · have hc2 := hc
        unfold countsToward at hc2
        simp only [hc2, hc, if_true]
        by_cases hnode :
            points + (((inorder left).countP (countsToward target) : Nat) : Int) + 1 < 2 ^ 31
        · rw [intResult_some _ (by omega) hnode]
          simp only
          rw [ihr _ (by omega) hnode]
          congr 1
          push_cast
          ring
        · rw [intResult_none _ (by omega), intResult_none _ (by push_cast; omega)]
      · have hc2 := hc
        unfold countsToward at hc2
        simp only [hc2, hc, if_false, Bool.false_eq_true, add_zero]
        rw [ihr _ (by omega) hleft]
        congr 1
        push_cast
        ring
    · rw [intResult_none _ (by omega), intResult_none _ (by push_cast; omega)]

theorem calculateMasteryPoints_of_found (book : RecipeBook) (name : String)
    (item : Recipe) (l r : NodePtr) (h : book.findRecipe name = .node item l r) :
    book.calculateMasteryPoints name =
      if item.mastered_ then some 0
      else intResult (1 + (((inorder book.root).countP (countsToward item) : Nat) : Int)) := by
  unfold RecipeBook.calculateMasteryPoints
  rw [h]
  simp only [calculateMasteryPointsHelper_eq _ _ 1 (by norm_num) (by norm_num)]

theorem calculateMasteryPoints_of_null (book : RecipeBook) (name : String)
    (h : book.findRecipe name = .null) : book.calculateMasteryPoints name = some (-1) := by
  unfold RecipeBook.calculateMasteryPoints
  rw [h]

/-- A stored record does not count toward itself, so fewer records count
toward it than the book holds. -/
theorem countP_countsToward_lt (l : List Recipe) (target : Recipe) (h : target ∈ l) :
    l.countP (countsToward target) < l.length := by
  have hle := List.countP_le_length (countsToward target) (l := l)
  have hne : l.countP (countsToward target) ≠ l.length := by
    intro heq
    have := (List.countP_eq_length.1 heq) target h
    simp [countsToward] at this
  omega

/-- On a book with the BST invariant and fewer than `2 ^ 31` records the
counter stays within `int`, so `calculateMasteryPoints` returns. -/
theorem calculateMasteryPoints_returns (book : RecipeBook) (name : String)
    (hbst : IsBST book.root) (hsize : (inorder book.root).length < 2 ^ 31) :
    ∃ points, book.calculateMasteryPoints name = some points := by
  by_cases hin : name ∈ book.names
  · obtain ⟨item, l, r, hfound, _, hmem⟩ := findRecipe_of_mem book name hbst hin
    have hlt := countP_countsToward_lt _ item hmem
    rw [calculateMasteryPoints_of_found book name item l r hfound]
    split_ifs
    · exact ⟨0, rfl⟩
    · exact ⟨_, intResult_some _ (by omega) (by omega)⟩
  · exact ⟨-1, calculateMasteryPoints_of_null book name
      (findRecipe_of_not_mem book name hin)⟩

/-- C1 (as amended). On a book that satisfies the name-ordered BST invariant
and holds fewer than `2 ^ 31` records, when the record `target` stored under
`name` is not mastered, `calculateMasteryPoints name` returns exactly 1 plus
the number of stored records with strictly lower difficulty than `target`
and mastered flag false; `target` itself is not among the records counted. -/
theorem calculateMasteryPoints_unmastered (book : RecipeBook) (name : String)
    (target : Recipe) (hbst : IsBST book.root) (hsize : (inorder book.root).length < 2 ^ 31)
    (hmem : target ∈ inorder book.root)
    (hname : target.name_ = name) (hm : target.mastered_ = false) :
    book.calculateMasteryPoints name =
        some (1 + (((inorder book.root).countP (countsToward target) : Nat) : Int)) ∧
      countsToward target target = false := by
  refine ⟨?_, by simp [countsToward]⟩
  have hin : name ∈ book.names := (mem_names_iff book name).2 ⟨target, hmem, hname⟩
  obtain ⟨item, l, r, hfound, hitem, hitemmem⟩ := findRecipe_of_mem book name hbst hin
  have heq : item = target :=
    isBST_name_unique _ hbst item target hitemmem hmem (by rw [hitem, hname])
  have hlt := countP_countsToward_lt _ target hmem
  rw [calculateMasteryPoints_of_found book name item l r hfound, heq, hm]
  simp only [Bool.false_eq_true, if_false]
  exact intResult_some _ (by omega) (by omega)

/-- Witness for C1 (as amended): the example of `A` (difficulty 1,
mastered), `B` (difficulty 2, not mastered) and `C` (difficulty 3, not
mastered) gives 2 points for `C`. -/
theorem calculateMasteryPoints_unmastered_witness :
    IsBST sampleBook.root ∧ (inorder sampleBook.root).length < 2 ^ 31 ∧
      sampleC ∈ inorder sampleBook.root ∧
      sampleC.name_ = "C" ∧ sampleC.mastered_ = false ∧
      sampleBook.calculateMasteryPoints "C" = some 2 ∧
      (sampleBook.calculateMasteryPoints "C" =
        some (1 + (((inorder sampleBook.root).countP (countsToward sampleC) : Nat) : Int)) ∧
      countsToward sampleC sampleC = false) :=
  ⟨by decide, by decide, by decide, by decide, by decide, by decide,
    calculateMasteryPoints_unmastered sampleBook "C" sampleC
      (by decide) (by decide) (by decide) (by decide) (by decide)⟩

/-- C8. Whenever the node that `findRecipe name` returns holds a record whose
mastered flag is true, `calculateMasteryPoints name` is exactly 0, on any
tree and whatever else it stores. -/
theorem calculateMasteryPoints_mastered (book : RecipeBook) (name : String)
    (item : Recipe) (l r : NodePtr) (hfound : book.findRecipe name = .node item l r)
    (hm : item.mastered_ = true) : book.calculateMasteryPoints name = some 0 := by
  rw [calculateMasteryPoints_of_found book name item l r hfound, hm]
  simp

/-- Witness for C8 on the sample book: the mastered record `A` gives 0. -/
theorem calculateMasteryPoints_mastered_witness :
    sampleBook.findRecipe "A" = .node sampleA .null .null ∧ sampleA.mastered_ = true ∧
      sampleBook.calculateMasteryPoints "A" = some 0 :=
  ⟨by decide, by decide,
    calculateMasteryPoints_mastered sampleBook "A" sampleA .null .null
      (by decide) (by decide)⟩

/-! ## Insertion -/

theorem add_inorder_split (t : NodePtr) (v : Recipe) :
    ∃ before after, inorder t = before ++ after ∧
      inorder (BinarySearchTree.add t v) = before ++ v :: after := by
  induction t with
  | null => exact ⟨[], [], by simp [inorder], by simp [BinarySearchTree.add, inorder]⟩
  | node item left right ihl ihr =>
    simp only [BinarySearchTree.add]
    split_ifs with h
    · obtain ⟨b, a, h1, h2⟩ := ihl
      exact ⟨b, a ++ item :: inorder right, by simp [inorder, h1], by simp [inorder, h2]⟩
    · obtain ⟨b, a, h1, h2⟩ := ihr
      exact ⟨inorder left ++ item :: b, a, by simp [inorder, h1], by simp [inorder, h2]⟩

theorem mem_inorder_add (t : NodePtr) (v x : Recipe) :
    x ∈ inorder (BinarySearchTree.add t v) ↔ x = v ∨ x ∈ inorder t := by
  obtain ⟨b, a, h1, h2⟩ := add_inorder_split t v
  rw [h1, h2]
  simp only [List.mem_append, List.mem_cons]
  tauto

theorem add_isOrdered (t : NodePtr) (v : Recipe) (h : IsOrdered t) :
    IsOrdered (BinarySearchTree.add t v) := by
  induction t with
  | null => simp [BinarySearchTree.add, IsOrdered, inorder]
  | node item left right ihl ihr =>
    obtain ⟨hl, hr, hol, hor⟩ := h
    simp only [BinarySearchTree.add]
    split_ifs with hlt
    · refine ⟨?_, hr, ihl hol, hor⟩
      intro x hx
      rcases (mem_inorder_add left v x).1 hx with hx | hx
      · rw [hx]
        exact (opGt_false_iff v item).2 (le_of_lt ((opLt_iff v item).1 hlt))
      · exact hl x hx
    · refine ⟨hl, ?_, hol, ihr hor⟩
      intro x hx
      rcases (mem_inorder_add right v x).1 hx with hx | hx
      · rw [hx]
        exact Bool.eq_false_iff.2 hlt
      · exact hr x hx

theorem add_isBST (t : NodePtr) (v : Recipe) (h : IsBST t)
    (hnew : ∀ x ∈ inorder t, x.name_ ≠ v.name_) : IsBST (BinarySearchTree.add t v) := by
  induction t with
  | null => simp [BinarySearchTree.add, IsBST, inorder]
  | node item left right ihl ihr =>
    obtain ⟨hl, hr, hbl, hbr⟩ := h
    have hitem : item.name_ ≠ v.name_ := hnew item (by simp [inorder])
    simp only [BinarySearchTree.add]
    split_ifs with hlt
    · refine ⟨?_, hr, ihl hbl (fun x hx => hnew x (by simp [inorder, hx])), hbr⟩
      intro x hx
      rcases (mem_inorder_add left v x).1 hx with hx | hx
      · rw [hx]; exact hlt
      · exact hl x hx
    · refine ⟨hl, ?_, hbl, ihr hbr (fun x hx => hnew x (by simp [inorder, hx]))⟩
      intro x hx
      rcases (mem_inorder_add right v x).1 hx with hx | hx
      · rw [hx]
        have h1 : ¬ v.name_ < item.name_ := fun h2 => hlt ((opLt_iff v item).2 h2)
        exact (opGt_iff v item).2 (lt_of_le_of_ne (not_lt.1 h1) hitem)
      · exact hr x hx

/-- The search inside `findRecipe` looks at the name of the key only. -/
theorem findRecipeHelper_key (t : NodePtr) (a b : Recipe) (h : a.name_ = b.name_) :
    findRecipeHelper t a = findRecipeHelper t b := by
  induction t with
  | null => rfl
  | node item left right ihl ihr =>
    simp only [findRecipeHelper, Recipe.opEq, Recipe.opGt, h, ihl, ihr]

theorem findRecipe_ne_null_of_mem (book : RecipeBook) (name : String)
    (hord : IsOrdered book.root) (h : ∃ x ∈ inorder book.root, x.name_ = name) :
    book.findRecipe name ≠ .null :=
  findRecipeHelper_complete book.root _ hord h

theorem not_mem_of_findRecipe_null (book : RecipeBook) (name : String)
    (hord : IsOrdered book.root) (h : book.findRecipe name = .null) :
    ∀ x ∈ inorder book.root, x.name_ ≠ name :=
  fun x hx hn => findRecipe_ne_null_of_mem book name hord ⟨x, hx, hn⟩ h

theorem addRecipe_of_mem (book : RecipeBook) (r : Recipe) (hord : IsOrdered book.root)
    (h : ∃ x ∈ inorder book.root, x.name_ = r.name_) :
    book.addRecipe r = (false, book) := by
  unfold RecipeBook.addRecipe
  rw [if_pos (findRecipe_ne_null_of_mem book r.name_ hord h)]

theorem addRecipe_of_not_mem (book : RecipeBook) (r : Recipe)
    (h : ∀ x ∈ inorder book.root, x.name_ ≠ r.name_) :
    book.addRecipe r = (true, ⟨BinarySearchTree.add book.root r⟩) := by
  unfold RecipeBook.addRecipe
  have hnull : book.findRecipe r.name_ = .null := by
    rcases findRecipeHelper_cases book.root { Recipe.mkDefault with name_ := r.name_ } with h1 | h1
    · exact h1
    · obtain ⟨item, l, rr, h1⟩ := h1
      have hs := findRecipeHelper_sound _ _ _ _ _ h1
      exact absurd hs.1 (h item hs.2)
  rw [if_neg (not_not.2 hnull)]

theorem addRecipe_isOrdered (book : RecipeBook) (r : Recipe) (hord : IsOrdered book.root) :
    IsOrdered (book.addRecipe r).2.root := by
  unfold RecipeBook.addRecipe
  split_ifs
  · exact hord
  · exact add_isOrdered _ _ hord

theorem addRecipe_isBST (book : RecipeBook) (r : Recipe) (hbst : IsBST book.root) :
    IsBST (book.addRecipe r).2.root := by
  unfold RecipeBook.addRecipe
  split_ifs with h
  · exact hbst
  · exact add_isBST _ _ hbst
      (not_mem_of_findRecipe_null book r.name_ (isBST_isOrdered _ hbst) (not_not.1 h))

theorem addRecipe_name_mem (book : RecipeBook) (r : Recipe) :
    ∃ x ∈ inorder (book.addRecipe r).2.root, x.name_ = r.name_ := by
  unfold RecipeBook.addRecipe
  split_ifs with h
  · rcases findRecipeHelper_cases book.root { Recipe.mkDefault with name_ := r.name_ } with h1 | h1
    · exact absurd h1 h
    · obtain ⟨item, l, rr, h1⟩ := h1
      have hs := findRecipeHelper_sound _ _ _ _ _ h1
      exact ⟨item, hs.2, hs.1⟩
  · exact ⟨r, (mem_inorder_add _ _ _).2 (Or.inl rfl), rfl⟩

/-- C4. On every ordered book (equal names tolerated), if a record with the
name of `r` is already stored, `addRecipe r` returns `false` and leaves the
whole book as it was; and after any `addRecipe first`, an `addRecipe second`
with the same name returns `false` and changes nothing. -/
theorem addRecipe_duplicate (book : RecipeBook) (r : Recipe) (hord : IsOrdered book.root) :
    ((∃ x ∈ inorder book.root, x.name_ = r.name_) → book.addRecipe r = (false, book)) ∧
      (∀ second : Recipe, second.name_ = r.name_ →
        (book.addRecipe r).2.addRecipe second = (false, (book.addRecipe r).2)) := by
  refine ⟨addRecipe_of_mem book r hord, ?_⟩
  intro second hname
  apply addRecipe_of_mem _ _ (addRecipe_isOrdered book r hord)
  rw [hname]
  exact addRecipe_name_mem book r

/-- Witness for C4 on the sample book, with a second record named `C`. -/
theorem addRecipe_duplicate_witness :
    IsOrdered sampleBook.root ∧
      (((∃ x ∈ inorder sampleBook.root, x.name_ = sampleCAgain.name_) →
          sampleBook.addRecipe sampleCAgain = (false, sampleBook)) ∧
        (∀ second : Recipe, second.name_ = sampleCAgain.name_ →
          (sampleBook.addRecipe sampleCAgain).2.addRecipe second =
            (false, (sampleBook.addRecipe sampleCAgain).2))) :=
  ⟨by decide, addRecipe_duplicate sampleBook sampleCAgain (by decide)⟩

/-- C9. On a book satisfying the name-ordered BST invariant, for a record `r`
whose name is not stored: `addRecipe r` returns `true`; afterwards
`findRecipe r.name_` returns a node holding `r` itself; and the in-order
sequence afterwards is the previous one with `r` inserted between the
records with smaller names and those with greater names. -/
theorem addRecipe_new (book : RecipeBook) (r : Recipe) (hbst : IsBST book.root)
    (hnew : r.name_ ∉ book.names) :
    (book.addRecipe r).1 = true ∧
      (∃ l rt, (book.addRecipe r).2.findRecipe r.name_ = .node r l rt) ∧
      (∃ before after, inorder book.root = before ++ after ∧
        inorder (book.addRecipe r).2.root = before ++ r :: after ∧
        (∀ x ∈ before, x.name_ < r.name_) ∧ (∀ x ∈ after, r.name_ < x.name_)) ∧
      IsBST (book.addRecipe r).2.root := by
  have hnew2 : ∀ x ∈ inorder book.root, x.name_ ≠ r.name_ :=
    fun x hx hn => hnew ((mem_names_iff book r.name_).2 ⟨x, hx, hn⟩)
  have hadd := addRecipe_of_not_mem book r hnew2
  have hbst2 : IsBST (BinarySearchTree.add book.root r) := add_isBST _ _ hbst hnew2
  rw [hadd]
  refine ⟨rfl, ?_, ?_, hbst2⟩
  · have hin : r.name_ ∈ (RecipeBook.mk (BinarySearchTree.add book.root r)).names :=
      (mem_names_iff _ _).2 ⟨r, (mem_inorder_add _ _ _).2 (Or.inl rfl), rfl⟩
    obtain ⟨item, l, rt, hfound, hitem, hitemmem⟩ :=
      findRecipe_of_mem (RecipeBook.mk (BinarySearchTree.add book.root r)) r.name_ hbst2 hin
    have heq : item = r :=
      isBST_name_unique _ hbst2 item r hitemmem
        ((mem_inorder_add _ _ _).2 (Or.inl rfl)) hitem
    rw [heq] at hfound
    exact ⟨l, rt, hfound⟩
  · obtain ⟨b, a, h1, h2⟩ := add_inorder_split book.root r
    refine ⟨b, a, h1, h2, ?_, ?_⟩
    · have hp := isBST_pairwise _ hbst2
      rw [h2, List.pairwise_append] at hp
      intro x hx
      exact hp.2.2 x hx r (List.mem_cons_self _ _)
    · have hp := isBST_pairwise _ hbst2
      rw [h2, List.pairwise_append, List.pairwise_cons] at hp
      intro x hx
      exact hp.2.1.1 x hx

/-- Witness for C9 on the sample book, with the new name `Ba`. -/
theorem addRecipe_new_witness :
    IsBST sampleBook.root ∧ sampleNew.name_ ∉ sampleBook.names ∧
      ((sampleBook.addRecipe sampleNew).1 = true ∧
      (∃ l rt, (sampleBook.addRecipe sampleNew).2.findRecipe
          sampleNew.name_ = .node sampleNew l rt) ∧
      (∃ before after, inorder sampleBook.root = before ++ after ∧
        inorder (sampleBook.addRecipe sampleNew).2.root =
          before ++ sampleNew :: after ∧
        (∀ x ∈ before, x.name_ < sampleNew.name_) ∧
        (∀ x ∈ after, sampleNew.name_ < x.name_)) ∧
      IsBST (sampleBook.addRecipe sampleNew).2.root) :=
  ⟨by decide, by decide,
    addRecipe_new sampleBook sampleNew (by decide) (by decide)⟩

/-! ## Removal -/

theorem removeLeftmost_inorder (item : Recipe) (left right : NodePtr) :
    inorder (.node item left right) =
      (BinarySearchTree.removeLeftmost item left right).1 ::
        inorder (BinarySearchTree.removeLeftmost item left right).2 := by
  induction left generalizing item right with
  | null => simp [BinarySearchTree.removeLeftmost, inorder]
  | node litem ll lr ihl _ =>
    have h := ihl litem lr
    simp only [BinarySearchTree.removeLeftmost]
    simp only [inorder] at h ⊢
    rw [h]
    simp

theorem removeNode_inorder (item : Recipe) (left right : NodePtr) :
    inorder (BinarySearchTree.removeNode item left right) = inorder left ++ inorder right := by
  cases left with
  | null => simp [BinarySearchTree.removeNode, inorder]
  | node litem ll lr =>
    cases right with
    | null => simp [BinarySearchTree.removeNode, inorder]
    | node ritem rl rr =>
      simp only [BinarySearchTree.removeNode]
      have h := removeLeftmost_inorder ritem rl rr
      simp only [inorder] at h ⊢
      rw [h]

theorem remove_sublist (t : NodePtr) (key : Recipe) :
    (inorder (BinarySearchTree.remove t key).2).Sublist (inorder t) := by
  induction t with
  | null => simp [BinarySearchTree.remove, inorder]
  | node item left right ihl ihr =>
    simp only [BinarySearchTree.remove]
    split_ifs with h1 h2
    · simp only [removeNode_inorder, inorder]
      exact List.Sublist.append (List.Sublist.refl _) (List.sublist_cons_self _ _)
    · simp only [inorder]
      exact List.Sublist.append ihl (List.Sublist.refl _)
    · simp only [inorder]
      exact List.Sublist.append (List.Sublist.refl _) (List.Sublist.cons₂ _ ihr)

theorem removeRecipe_isBST (book : RecipeBook) (name : String) (hbst : IsBST book.root) :
    IsBST (book.removeRecipe name).2.root := by
  apply pairwise_isBST
  exact List.Pairwise.sublist (remove_sublist _ _) (isBST_pairwise _ hbst)

/-! ## Rebuilding -/

theorem buildBalancedTreeAux_base (depth : Nat) (book : RecipeBook) (recipes : List Recipe)
    (s e : Int) (h : s > e) :
    RecipeBook.buildBalancedTreeAux depth book recipes s e = some book := by
  unfold RecipeBook.buildBalancedTreeAux
  rw [if_pos h]

theorem buildBalancedTreeAux_step (depth : Nat) (book : RecipeBook) (recipes : List Recipe)
    (s e : Int) (r : Recipe) (h : s ≤ e) (hs : 0 ≤ s) (hmax : e < 2 ^ 31 - 1)
    (hr : recipes.get? (s + (e - s) / 2).toNat = some r) :
    RecipeBook.buildBalancedTreeAux (depth + 1) book recipes s e =
      (RecipeBook.buildBalancedTreeAux depth (book.addRecipe r).2 recipes s
          (s + (e - s) / 2 - 1)).bind
        (fun afterLeft =>
          RecipeBook.buildBalancedTreeAux depth afterLeft recipes (s + (e - s) / 2 + 1) e) := by
  have hdiv : Int.tdiv (e - s) 2 = (e - s) / 2 := Int.tdiv_eq_ediv (by omega) (by omega)
  rw [RecipeBook.buildBalancedTreeAux]
  rw [if_neg (by omega), intResult_some (e - s) (by omega) (by omega)]
  simp only [hdiv]
  rw [intResult_some (s + (e - s) / 2) (by omega) (by omega)]
  simp only
  rw [if_neg (by omega), hr, intResult_some (s + (e - s) / 2 - 1) (by omega) (by omega),
    intResult_some (s + (e - s) / 2 + 1) (by omega) (by omega)]
  simp only
  cases RecipeBook.buildBalancedTreeAux depth (book.addRecipe r).2 recipes s
      (s + (e - s) / 2 - 1) <;> rfl

/-- Whenever a call that enters the body returns, an element was added, both
nested calls returned, and the start `mid + 1` of the second one was computed
within `int`. -/
theorem buildBalancedTreeAux_inv (depth : Nat) (book after : RecipeBook)
    (recipes : List Recipe) (s e : Int) (hse : ¬ s > e)
    (h : RecipeBook.buildBalancedTreeAux (depth + 1) book recipes s e = some after) :
    ∃ (r : Recipe) (afterLeft : RecipeBook) (leftEnd rightStart : Int),
      RecipeBook.buildBalancedTreeAux depth (book.addRecipe r).2 recipes s leftEnd =
        some afterLeft ∧
      RecipeBook.buildBalancedTreeAux depth afterLeft recipes rightStart e = some after ∧
      rightStart < 2 ^ 31 := by
  rw [RecipeBook.buildBalancedTreeAux, if_neg hse] at h
  split at h
  · cases h
  · split at h
    · cases h
    · split_ifs at h
      split at h
      · cases h
      · split at h
        · cases h
        · split at h
          · cases h
          · split at h
            · cases h
            · rename_i hleft _ _ hright
              exact ⟨_, _, _, _, hleft, h, by
                have := (intResult_eq_some _ _ hright).2.2
                have := (intResult_eq_some _ _ hright).1
                omega⟩

/-- Whenever the rebuild returns from a book with the BST invariant, the book
it returns has the BST invariant. -/
theorem buildBalancedTreeAux_isBST (depth : Nat) (book after : RecipeBook)
    (recipes : List Recipe) (s e : Int) (hbst : IsBST book.root)
    (h : RecipeBook.buildBalancedTreeAux depth book recipes s e = some after) :
    IsBST after.root := by
  induction depth generalizing book after s e with
  | zero =>
    unfold RecipeBook.buildBalancedTreeAux at h
    split_ifs at h
    injection h with h
    rw [← h]
    exact hbst
  | succ depth ih =>
    by_cases hse : s > e
    · rw [buildBalancedTreeAux_base _ book recipes s e hse] at h
      injection h with h
      rw [← h]
      exact hbst
    · obtain ⟨r, afterLeft, leftEnd, rightStart, h1, h2, _⟩ :=
        buildBalancedTreeAux_inv depth book after recipes s e hse h
      exact ih afterLeft after rightStart e
        (ih _ afterLeft s leftEnd (addRecipe_isBST book r hbst) h1) h2

/-- No call on a non-empty span that ends at `INT_MAX` returns, whatever the
vector and however deep the nesting may go: the innermost call on such a span
has `mid = INT_MAX` and evaluates `mid + 1`. -/
theorem buildBalancedTreeAux_intMax (depth : Nat) (book : RecipeBook)
    (recipes : List Recipe) (s : Int) (h : s ≤ 2 ^ 31 - 1) :
    RecipeBook.buildBalancedTreeAux depth book recipes s (2 ^ 31 - 1) = none := by
  induction depth generalizing book s with
  | zero =>
    unfold RecipeBook.buildBalancedTreeAux
    rw [if_neg (by omega)]
  | succ depth ih =>
    cases hres : RecipeBook.buildBalancedTreeAux (depth + 1) book recipes s (2 ^ 31 - 1) with
    | none => rfl
    | some after =>
      obtain ⟨r, afterLeft, leftEnd, rightStart, _, h2, hlt⟩ :=
        buildBalancedTreeAux_inv depth book after recipes s _ (by omega) hres
      rw [ih afterLeft rightStart (by omega)] at h2
      cases h2

theorem mem_names_addRecipe (book : RecipeBook) (r : Recipe) (name : String) :
    name ∈ (book.addRecipe r).2.names ↔ name ∈ book.names ∨ name = r.name_ := by
  constructor
  · intro h
    unfold RecipeBook.addRecipe at h
    split_ifs at h with h1
    · exact Or.inl h
    · obtain ⟨x, hx, hn⟩ := (mem_names_iff _ _).1 h
      rcases (mem_inorder_add _ _ _).1 hx with hx | hx
      · right; rw [← hn, hx]
      · left; exact (mem_names_iff _ _).2 ⟨x, hx, hn⟩
  · rintro (h | h)
    · unfold RecipeBook.addRecipe
      split_ifs with h1
      · exact h
      · obtain ⟨x, hx, hn⟩ := (mem_names_iff _ _).1 h
        exact (mem_names_iff _ _).2 ⟨x, (mem_inorder_add _ _ _).2 (Or.inr hx), hn⟩
    · rw [h]
      exact (mem_names_iff _ _).2 (addRecipe_name_mem book r)

/-- Starting from a book with the BST invariant, with the span inside the
vector, its end below `INT_MAX` and the nesting bound at least the span's
length, the rebuild returns
a book with the BST invariant whose names are the old ones together with the
names at the indices of the span. -/
theorem buildBalancedTreeAux_spec (depth : Nat) (book : RecipeBook) (recipes : List Recipe)
    (s e : Int) (hbst : IsBST book.root) (hs : 0 ≤ s) (he : e < recipes.length)
    (hmax : e < 2 ^ 31 - 1) (hd : e - s + 1 ≤ depth) :
    ∃ after, RecipeBook.buildBalancedTreeAux depth book recipes s e = some after ∧
      IsBST after.root ∧
      ∀ name, name ∈ after.names ↔
        name ∈ book.names ∨
          ∃ i : Nat, s ≤ i ∧ (i : Int) ≤ e ∧ ∃ r, recipes.get? i = some r ∧ r.name_ = name := by
  induction depth generalizing book s e with
  | zero =>
    refine ⟨book, buildBalancedTreeAux_base 0 book recipes s e (by omega), hbst, ?_⟩
    intro name
    constructor
    · exact fun h => Or.inl h
    · rintro (h | ⟨i, h1, h2, _⟩)
      · exact h
      · omega
  | succ depth ih =>
    by_cases hse : s > e
    · refine ⟨book, buildBalancedTreeAux_base _ book recipes s e hse, hbst, ?_⟩
      intro name
      constructor
      · exact fun h => Or.inl h
      · rintro (h | ⟨i, h1, h2, _⟩)
        · exact h
        · omega
    · have hle : s ≤ e := by omega
      have hmidlt : (s + (e - s) / 2).toNat < recipes.length := by omega
      obtain ⟨r, hr⟩ : ∃ r, recipes.get? (s + (e - s) / 2).toNat = some r :=
        ⟨recipes.get ⟨_, hmidlt⟩, List.get?_eq_get hmidlt⟩
      obtain ⟨b1, hb1, hbst1, hn1⟩ :=
        ih (book.addRecipe r).2 s (s + (e - s) / 2 - 1) (addRecipe_isBST book r hbst) hs
          (by omega) (by omega) (by omega)
      obtain ⟨b2, hb2, hbst2, hn2⟩ :=
        ih b1 (s + (e - s) / 2 + 1) e hbst1 (by omega) he hmax (by omega)
      refine ⟨b2, ?_, hbst2, ?_⟩
      · rw [buildBalancedTreeAux_step depth book recipes s e r hle hs hmax hr, hb1]
        exact hb2
      · intro name
        rw [hn2, hn1, mem_names_addRecipe]
        constructor
        · rintro (((h | h) | ⟨i, h1, h2, h3⟩) | ⟨i, h1, h2, h3⟩)
          · exact Or.inl h
          · right
            refine ⟨(s + (e - s) / 2).toNat, by omega, by omega, r, hr, h.symm⟩
          · exact Or.inr ⟨i, h1, by omega, h3⟩
          · exact Or.inr ⟨i, by omega, h2, h3⟩
        · rintro (h | ⟨i, h1, h2, r', h3, h4⟩)
          · exact Or.inl (Or.inl (Or.inl h))
          · rcases lt_trichotomy (i : Int) (s + (e - s) / 2) with hlt | heq | hgt
            · exact Or.inl (Or.inr ⟨i, h1, by omega, r', h3, h4⟩)
            · have hi : i = (s + (e - s) / 2).toNat := by omega
              rw [hi, hr] at h3
              injection h3 with h3
              exact Or.inl (Or.inl (Or.inr (by rw [← h4, h3])))
            · exact Or.inr ⟨i, by omega, h2, r', h3, h4⟩

theorem narrowToInt_sizeMinusOne_lt (n : Nat) : narrowToInt (sizeMinusOne n) < n := by
  unfold narrowToInt sizeMinusOne sizeBits intBits
  norm_num
  split_ifs <;> omega

theorem narrowToInt_sizeMinusOne_small (n : Nat) (h : n < 2 ^ 31) :
    narrowToInt (sizeMinusOne n) = (n : Int) - 1 := by
  unfold narrowToInt sizeMinusOne sizeBits intBits
  norm_num at h ⊢
  split_ifs <;> omega

/-- Whenever `balance` returns, the book it returns satisfies the BST
invariant. -/
theorem balance_isBST (book after : RecipeBook) (h : book.balance = some after) :
    IsBST after.root :=
  buildBalancedTreeAux_isBST _ book.clear after _ 0 _ trivial h

/-- On every book of fewer than `2 ^ 31` records `balance` returns. -/
theorem balance_returns (book : RecipeBook) (hsize : (inorder book.root).length < 2 ^ 31) :
    ∃ after, book.balance = some after := by
  have hlen : (collectRecipes book.root []).length < 2 ^ 31 := by
    rw [collectRecipes_eq]; simpa using hsize
  have hend := narrowToInt_sizeMinusOne_small _ hlen
  unfold RecipeBook.balance RecipeBook.buildBalancedTree
  obtain ⟨after, h1, _, _⟩ :=
    buildBalancedTreeAux_spec
      (narrowToInt (sizeMinusOne (collectRecipes book.root []).length) - 0 + 1).toNat
      book.clear (collectRecipes book.root []) 0
      (narrowToInt (sizeMinusOne (collectRecipes book.root []).length))
      trivial (le_refl _) (narrowToInt_sizeMinusOne_lt _) (by omega) (by omega)
  exact ⟨after, h1⟩

/-- Whenever `balance` returns, the end index it passed to the rebuild was
below `INT_MAX`. -/
theorem balance_end_lt (book after : RecipeBook) (h : book.balance = some after) :
    narrowToInt (sizeMinusOne (inorder book.root).length) < 2 ^ 31 - 1 := by
  have hcol : collectRecipes book.root [] = inorder book.root := by
    rw [collectRecipes_eq, List.nil_append]
  have hlt : narrowToInt (sizeMinusOne (inorder book.root).length) < 2 ^ 31 := by
    unfold narrowToInt intBits
    norm_num
    split_ifs <;> omega
  by_contra hne
  have heq : narrowToInt (sizeMinusOne (inorder book.root).length) = 2 ^ 31 - 1 := by omega
  simp only [RecipeBook.balance, RecipeBook.buildBalancedTree, hcol] at h
  rw [heq, buildBalancedTreeAux_intMax _ _ _ 0 (by norm_num)] at h
  cases h

theorem reachable_isBST (book : RecipeBook) (h : Reachable book) : IsBST book.root := by
  induction h with
  | empty => trivial
  | addRecipe book recipe _ ih => exact addRecipe_isBST book recipe ih
  | removeRecipe book name _ ih => exact removeRecipe_isBST book name ih
  | balance book after _ hbal _ => exact balance_isBST book after hbal

/-- C6 (as amended). Every book obtained from the empty book by finitely
many `addRecipe`, `removeRecipe` and `balance` calls that return lists its
names in strictly increasing lexicographic order under in-order traversal
and satisfies the BST invariant; and `balance` returns on it whenever it
holds fewer than `2 ^ 31` records, so every sequence of calls whose `balance`
calls are made on fewer than `2 ^ 31` records is covered. -/
theorem reachable_names_sorted (book : RecipeBook) (h : Reachable book) :
    book.names.Sorted (· < ·) ∧ IsBST book.root ∧
      (collectRecipes book.root []).map Recipe.name_ = book.names ∧
      ((inorder book.root).length < 2 ^ 31 → ∃ after, book.balance = some after) := by
  have hbst := reachable_isBST book h
  refine ⟨isBST_names_sorted _ hbst, hbst, ?_, balance_returns book⟩
  rw [collectRecipes_eq]
  rfl

/-! ## Balance -/

/-- C3 (as amended). For every book holding fewer than `2 ^ 31` records,
`balance` returns and the names stored afterwards are exactly the names
stored before: none is lost and none is introduced. -/
theorem balance_names_preserved (book : RecipeBook)
    (hsize : (inorder book.root).length < 2 ^ 31) :
    ∃ after, book.balance = some after ∧ ∀ name, name ∈ after.names ↔ name ∈ book.names := by
  have hlen : (collectRecipes book.root []).length < 2 ^ 31 := by
    rw [collectRecipes_eq]; simpa using hsize
  have hend := narrowToInt_sizeMinusOne_small _ hlen
  unfold RecipeBook.balance RecipeBook.buildBalancedTree
  obtain ⟨after, h1, _, h3⟩ :=
    buildBalancedTreeAux_spec
      (narrowToInt (sizeMinusOne (collectRecipes book.root []).length) - 0 + 1).toNat
      book.clear (collectRecipes book.root []) 0
      (narrowToInt (sizeMinusOne (collectRecipes book.root []).length))
      trivial (le_refl _) (narrowToInt_sizeMinusOne_lt _) (by omega) (by omega)
  refine ⟨after, h1, ?_⟩
  intro name
  rw [h3, hend, mem_names_iff book name, collectRecipes_eq, List.nil_append]
  constructor
  · rintro (h | ⟨i, _, _, r, hr, hn⟩)
    · simp [RecipeBook.names, RecipeBook.clear, inorder] at h
    · exact ⟨r, List.get?_mem hr, hn⟩
  · rintro ⟨x, hx, hn⟩
    right
    obtain ⟨i, hget⟩ := List.mem_iff_get?.1 hx
    have hilt : i < (inorder book.root).length := by
      by_contra hcon
      rw [List.get?_eq_none.2 (by omega)] at hget
      exact absurd hget (by simp)
    exact ⟨i, by omega, by omega, x, hget, hn⟩

/-- Witness for C3 (as amended): the right-leaning chain `A`, `B`, `C` is
rebuilt into the sample book. -/
theorem balance_names_preserved_witness :
    (inorder sampleChain.root).length < 2 ^ 31 ∧
      (∃ after, sampleChain.balance = some after ∧
        ∀ name, name ∈ after.names ↔ name ∈ sampleChain.names) ∧
      sampleChain.balance = some sampleBook :=
  ⟨by decide, balance_names_preserved sampleChain (by decide), by decide⟩

/-- C2. The book the file constructor builds from the data lines `A`, `A`,
`B`, `C` is rebuilt by `balance` into the chain `A`, `B`, `C` leaning to the
right (the second `A` is rejected by `addRecipe`), whose root has an empty
left subtree and a right subtree of height 2: the tree is not height
balanced. -/
theorem balance_duplicate_names_unbalanced :
    duplicateBook.balance =
        some ⟨.node sampleAAgain .null (.node sampleB .null (.node sampleC .null .null))⟩ ∧
      inorder duplicateBook.root = [sampleA, sampleAAgain, sampleB, sampleC] ∧
      height NodePtr.null = 0 ∧
      height (.node sampleB .null (.node sampleC .null .null)) = 2 ∧
      ¬ HeightBalanced
        (.node sampleAAgain .null (.node sampleB .null (.node sampleC .null .null))) := by
  decide

/-- Witness for C6 (as amended): add `A`, `B`, `C`, balance, then remove
`B`. -/
theorem reachable_names_sorted_witness :
    Reachable (sampleBook.removeRecipe "B").2 ∧
      ((sampleBook.removeRecipe "B").2.names.Sorted (· < ·) ∧
        IsBST (sampleBook.removeRecipe "B").2.root ∧
        (collectRecipes (sampleBook.removeRecipe "B").2.root []).map Recipe.name_ =
          (sampleBook.removeRecipe "B").2.names ∧
        ((inorder (sampleBook.removeRecipe "B").2.root).length < 2 ^ 31 →
          ∃ after, (sampleBook.removeRecipe "B").2.balance = some after)) ∧
      (sampleBook.removeRecipe "B").2 = ⟨.node sampleC (.node sampleA .null .null) .null⟩ ∧
      sampleChain.balance = some sampleBook :=
  have h : Reachable (sampleBook.removeRecipe "B").2 :=
    Reachable.removeRecipe sampleBook "B"
      (Reachable.balance sampleChain sampleBook
        (Reachable.addRecipe _ sampleC
          (Reachable.addRecipe _ sampleB
            (Reachable.addRecipe _ sampleA Reachable.empty)))
        (by decide))
  ⟨h, reachable_names_sorted _ h, by decide, by decide⟩

/-! ## Display -/

theorem print_eq (os : String) (r : Recipe) :
    Recipe.print os r ++ "\n" = os ++ recordBlock r := by
  simp only [Recipe.print, recordBlock, String.append_assoc]

theorem displayPreorderHelper_eq (t : NodePtr) (cout : String) :
    displayPreorderHelper t cout =
      (preorder t).foldl (fun out r => out ++ recordBlock r) cout := by
  induction t generalizing cout with
  | null => rfl
  | node item left right ihl ihr =>
    simp only [displayPreorderHelper, preorder, List.foldl_cons, List.foldl_append]
    rw [ihr, ihl, print_eq]

/-- C10. `preorderDisplay` leaves the book as it is and extends the output
by the blocks of the records in pre-order (a node, then its whole left
subtree, then its whole right subtree), each block being the four labelled
lines of the record followed by one blank line. -/
theorem preorderDisplay_output (book : RecipeBook) (cout : String) :
    book.preorderDisplay cout =
        (book, (preorder book.root).foldl (fun out r => out ++ recordBlock r) cout) ∧
      (∀ (item : Recipe) (left right : NodePtr),
        preorder (.node item left right) = item :: (preorder left ++ preorder right)) ∧
      (∀ r : Recipe, recordBlock r =
        "Name: " ++ r.name_ ++ "\n" ++ "Difficulty Level: " ++ toString r.difficulty_level_ ++
          "\n" ++ "Description: " ++ r.description_ ++ "\n" ++ "Mastered: " ++
          (if r.mastered_ then "Yes" else "No") ++ "\n" ++ "\n") := by
  refine ⟨?_, fun _ _ _ => rfl, fun _ => rfl⟩
  unfold RecipeBook.preorderDisplay
  rw [displayPreorderHelper_eq]

set_option maxRecDepth 100000 in
/-- Witness for C10: the tree with root `M`, left child `B` and right child
`T` is written as the blocks of `M`, then `B`, then `T`. -/
theorem preorderDisplay_output_witness :
    displayBook.preorderDisplay "" =
      (displayBook,
        "Name: M\nDifficulty Level: 2\nDescription: middle\nMastered: No\n\n" ++
        "Name: B\nDifficulty Level: -1\nDescription: left\nMastered: Yes\n\n" ++
        "Name: T\nDifficulty Level: 30\nDescription: right\nMastered: No\n\n") := by
  rw [(preorderDisplay_output displayBook "").1]
  decide

/-! ## Every producible book is ordered -/

theorem isOrdered_pairwise (t : NodePtr) (h : IsOrdered t) :
    (inorder t).Pairwise (fun a b => a.name_ ≤ b.name_) := by
  induction t with
  | null => simp [inorder]
  | node item left right ihl ihr =>
    obtain ⟨hl, hr, hol, hor⟩ := h
    simp only [inorder]
    rw [List.pairwise_append, List.pairwise_cons]
    refine ⟨ihl hol, ⟨fun b hb => (opLt_false_iff b item).1 (hr b hb), ihr hor⟩, ?_⟩
    intro a ha b hb
    have h1 := (opGt_false_iff a item).1 (hl a ha)
    rcases List.mem_cons.1 hb with hb | hb
    · rw [hb]; exact h1
    · exact le_trans h1 ((opLt_false_iff b item).1 (hr b hb))

theorem pairwise_isOrdered (t : NodePtr)
    (h : (inorder t).Pairwise (fun a b => a.name_ ≤ b.name_)) : IsOrdered t := by
  induction t with
  | null => trivial
  | node item left right ihl ihr =>
    simp only [inorder] at h
    rw [List.pairwise_append, List.pairwise_cons] at h
    obtain ⟨h1, ⟨h2, h3⟩, h4⟩ := h
    refine ⟨?_, ?_, ihl h1, ihr h3⟩
    · intro x hx
      exact (opGt_false_iff x item).2 (h4 x hx item (List.mem_cons_self _ _))
    · intro x hx
      exact (opLt_false_iff x item).2 (h2 x hx)

theorem removeRecipe_isOrdered (book : RecipeBook) (name : String)
    (hord : IsOrdered book.root) : IsOrdered (book.removeRecipe name).2.root := by
  apply pairwise_isOrdered
  exact List.Pairwise.sublist (remove_sublist _ _) (isOrdered_pairwise _ hord)

theorem foldl_add_isOrdered (records : List Recipe) (t : NodePtr) (h : IsOrdered t) :
    IsOrdered (records.foldl BinarySearchTree.add t) := by
  induction records generalizing t with
  | nil => exact h
  | cons r rs ih => exact ih _ (add_isOrdered t r h)

/-- Every book that the constructors, `addRecipe`, `removeRecipe`, `clear`
and `balance` can produce is ordered in the sense of `IsOrdered`. -/
theorem producible_isOrdered (book : RecipeBook) (h : Producible book) :
    IsOrdered book.root := by
  induction h with
  | empty => trivial
  | fromRecords records => exact foldl_add_isOrdered records .null trivial
  | addRecipe book recipe _ ih => exact addRecipe_isOrdered book recipe ih
  | removeRecipe book name _ ih => exact removeRecipe_isOrdered book name ih
  | clear book _ _ => trivial
  | balance book after _ hbal _ => exact isBST_isOrdered _ (balance_isBST book after hbal)

/-! ## The shape of the rebuilt tree -/

theorem medianTree_base (depth : Nat) (recipes : List Recipe) (s e : Int) (h : s > e) :
    medianTree depth recipes s e = .null := by
  cases depth with
  | zero => rfl
  | succ d => rw [medianTree, if_pos h]

theorem medianTree_step (depth : Nat) (recipes : List Recipe) (s e : Int) (r : Recipe)
    (h : s ≤ e) (hr : recipes.get? (s + (e - s) / 2).toNat = some r) :
    medianTree (depth + 1) recipes s e =
      .node r (medianTree depth recipes s (s + (e - s) / 2 - 1))
        (medianTree depth recipes (s + (e - s) / 2 + 1) e) := by
  rw [medianTree, if_neg (by omega), hr]

theorem medianTree_none (depth : Nat) (recipes : List Recipe) (s e : Int)
    (hr : recipes.get? (s + (e - s) / 2).toNat = none) :
    medianTree depth recipes s e = .null := by
  cases depth with
  | zero => rfl
  | succ d =>
    rw [medianTree, hr]
    split_ifs <;> rfl

theorem addRecipes_append (book : RecipeBook) (xs ys : List Recipe) :
    book.addRecipes (xs ++ ys) = (book.addRecipes xs).addRecipes ys := by
  simp [RecipeBook.addRecipes, List.foldl_append]

/-- The rebuild hands the records of the median tree to `addRecipe` in
pre-order. -/
theorem buildBalancedTreeAux_eq_addRecipes (depth : Nat) (book : RecipeBook)
    (recipes : List Recipe) (s e : Int) (hs : 0 ≤ s) (he : e < recipes.length)
    (hmax : e < 2 ^ 31 - 1) (hd : e - s + 1 ≤ depth) :
    RecipeBook.buildBalancedTreeAux depth book recipes s e =
      some (book.addRecipes (preorder (medianTree depth recipes s e))) := by
  induction depth generalizing book s e with
  | zero =>
    rw [buildBalancedTreeAux_base 0 book recipes s e (by omega)]
    rfl
  | succ depth ih =>
    by_cases hse : s > e
    · rw [buildBalancedTreeAux_base _ book recipes s e hse, medianTree_base _ _ _ _ hse]
      rfl
    · have hle : s ≤ e := by omega
      have hmidlt : (s + (e - s) / 2).toNat < recipes.length := by omega
      obtain ⟨r, hr⟩ : ∃ r, recipes.get? (s + (e - s) / 2).toNat = some r :=
        ⟨recipes.get ⟨_, hmidlt⟩, List.get?_eq_get hmidlt⟩
      rw [buildBalancedTreeAux_step depth book recipes s e r hle hs hmax hr,
        medianTree_step depth recipes s e r hle hr,
        ih (book.addRecipe r).2 s (s + (e - s) / 2 - 1) hs (by omega) (by omega) (by omega)]
      rw [Option.some_bind, ih _ (s + (e - s) / 2 + 1) e (by omega) he hmax (by omega)]
      simp [preorder, RecipeBook.addRecipes, List.foldl_append]

theorem mem_medianTree (depth : Nat) (recipes : List Recipe) (s e : Int) (hs : 0 ≤ s)
    (x : Recipe) (h : x ∈ inorder (medianTree depth recipes s e)) :
    ∃ i : Nat, s ≤ i ∧ (i : Int) ≤ e ∧ recipes.get? i = some x := by
  induction depth generalizing s e with
  | zero => simp [medianTree, inorder] at h
  | succ depth ih =>
    by_cases hse : s > e
    · rw [medianTree_base _ _ _ _ hse] at h
      simp [inorder] at h
    · cases hr : recipes.get? (s + (e - s) / 2).toNat with
      | none =>
        rw [medianTree_none _ _ _ _ hr] at h
        simp [inorder] at h
      | some r =>
        rw [medianTree_step depth recipes s e r (by omega) hr] at h
        simp only [inorder, List.mem_append, List.mem_cons] at h
        rcases h with h | h | h
        · obtain ⟨i, h1, h2, h3⟩ := ih s _ hs h
          exact ⟨i, h1, by omega, h3⟩
        · exact ⟨(s + (e - s) / 2).toNat, by omega, by omega, by rw [hr, h]⟩
        · obtain ⟨i, h1, h2, h3⟩ := ih _ e (by omega) h
          exact ⟨i, by omega, h2, h3⟩

theorem pairwise_get?_lt (l : List Recipe)
    (h : l.Pairwise (fun a b => a.name_ < b.name_)) (i j : Nat) (x y : Recipe)
    (hij : i < j) (hx : l.get? i = some x) (hy : l.get? j = some y) :
    x.name_ < y.name_ := by
  induction l generalizing i j with
  | nil => simp at hx
  | cons a l ih =>
    rw [List.pairwise_cons] at h
    cases j with
    | zero => omega
    | succ j =>
      cases i with
      | zero =>
        simp only [List.get?_cons_zero, Option.some.injEq] at hx
        simp only [List.get?_cons_succ] at hy
        rw [← hx]
        exact h.1 y (List.get?_mem hy)
      | succ i =>
        simp only [List.get?_cons_succ] at hx hy
        exact ih h.2 i j (by omega) hx hy

theorem medianTree_isBST (depth : Nat) (recipes : List Recipe) (s e : Int) (hs : 0 ≤ s)
    (hsorted : recipes.Pairwise (fun a b => a.name_ < b.name_)) :
    IsBST (medianTree depth recipes s e) := by
  induction depth generalizing s e with
  | zero => trivial
  | succ depth ih =>
    by_cases hse : s > e
    · rw [medianTree_base _ _ _ _ hse]
      trivial
    · cases hr : recipes.get? (s + (e - s) / 2).toNat with
      | none =>
        rw [medianTree_none _ _ _ _ hr]
        trivial
      | some r =>
        rw [medianTree_step depth recipes s e r (by omega) hr]
        refine ⟨?_, ?_, ih s _ hs, ih _ e (by omega)⟩
        · intro x hx
          obtain ⟨i, h1, h2, h3⟩ := mem_medianTree depth recipes s _ hs x hx
          exact (opLt_iff x r).2
            (pairwise_get?_lt recipes hsorted i _ x r (by omega) h3 hr)
        · intro x hx
          obtain ⟨i, h1, h2, h3⟩ := mem_medianTree depth recipes _ e (by omega) x hx
          exact (opGt_iff x r).2
            (pairwise_get?_lt recipes hsorted _ i r x (by omega) hr h3)

theorem addRecipes_eq_foldl_add (records : List Recipe) (book : RecipeBook)
    (hnodup : (records.map Recipe.name_).Nodup)
    (hnew : ∀ x ∈ records, ∀ y ∈ inorder book.root, y.name_ ≠ x.name_) :
    book.addRecipes records = ⟨records.foldl BinarySearchTree.add book.root⟩ := by
  induction records generalizing book with
  | nil => rfl
  | cons r rs ih =>
    rw [List.map_cons, List.nodup_cons] at hnodup
    have hadd := addRecipe_of_not_mem book r (hnew r (List.mem_cons_self _ _))
    simp only [RecipeBook.addRecipes, List.foldl_cons, hadd]
    apply ih _ hnodup.2
    intro x hx y hy
    rcases (mem_inorder_add _ _ _).1 hy with hy | hy
    · rw [hy]
      intro heq
      exact hnodup.1 (List.mem_map.2 ⟨x, hx, heq.symm⟩)
    · exact hnew x (List.mem_cons_of_mem _ hx) y hy

theorem foldl_add_node (ys : List Recipe) (x : Recipe) (l r : NodePtr) :
    ys.foldl BinarySearchTree.add (.node x l r) =
      .node x ((ys.filter (fun y => y.opLt x)).foldl BinarySearchTree.add l)
        ((ys.filter (fun y => !y.opLt x)).foldl BinarySearchTree.add r) := by
  induction ys generalizing l r with
  | nil => rfl
  | cons y ys ih =>
    rw [List.foldl_cons, BinarySearchTree.add]
    by_cases h : y.opLt x = true
    · rw [if_pos h, ih]
      simp [List.filter_cons, h]
    · rw [if_neg h, ih]
      simp [List.filter_cons, h]

theorem preorder_perm_inorder (t : NodePtr) : (preorder t).Perm (inorder t) := by
  induction t with
  | null => exact List.Perm.refl _
  | node x l r ihl ihr =>
    simp only [preorder, inorder]
    exact (List.Perm.cons x (List.Perm.append ihl ihr)).trans List.perm_middle.symm

theorem mem_preorder_iff (t : NodePtr) (x : Recipe) : x ∈ preorder t ↔ x ∈ inorder t :=
  (preorder_perm_inorder t).mem_iff

/-- Adding the records of a BST-ordered tree in pre-order to the empty tree
rebuilds that very tree. -/
theorem foldl_add_preorder (t : NodePtr) (h : IsBST t) :
    (preorder t).foldl BinarySearchTree.add .null = t := by
  induction t with
  | null => rfl
  | node x l r ihl ihr =>
    obtain ⟨hl, hr, hbl, hbr⟩ := h
    have h1 : (preorder l ++ preorder r).filter (fun y => y.opLt x) = preorder l := by
      rw [List.filter_append, List.filter_eq_self.2, List.filter_eq_nil_iff.2, List.append_nil]
      · intro y hy
        have := (opGt_iff y x).1 (hr y ((mem_preorder_iff r y).1 hy))
        rw [Bool.not_eq_true, opLt_false_iff]
        exact le_of_lt this
      · intro y hy
        exact hl y ((mem_preorder_iff l y).1 hy)
    have h2 : (preorder l ++ preorder r).filter (fun y => !y.opLt x) = preorder r := by
      rw [List.filter_append, List.filter_eq_nil_iff.2, List.filter_eq_self.2, List.nil_append]
      · intro y hy
        have := (opGt_iff y x).1 (hr y ((mem_preorder_iff r y).1 hy))
        rw [Bool.not_eq_true', opLt_false_iff]
        exact le_of_lt this
      · intro y hy
        rw [hl y ((mem_preorder_iff l y).1 hy)]
        simp
    simp only [preorder, List.foldl_cons, BinarySearchTree.add]
    rw [foldl_add_node, h1, h2, ihl hbl, ihr hbr]

theorem isBST_preorder_names_nodup (t : NodePtr) (h : IsBST t) :
    ((preorder t).map Recipe.name_).Nodup := by
  rw [((preorder_perm_inorder t).map Recipe.name_).nodup_iff]
  have := isBST_names_sorted t h
  exact this.nodup

/-- Handing the pre-order of a BST-ordered tree to `addRecipe`, starting from
the empty book, rebuilds that very tree. -/
theorem addRecipes_preorder (t : NodePtr) (h : IsBST t) :
    (RecipeBook.mk .null).addRecipes (preorder t) = ⟨t⟩ := by
  rw [addRecipes_eq_foldl_add _ _ (isBST_preorder_names_nodup t h)
    (by intro x _ y hy; simp [inorder] at hy)]
  simp only
  rw [foldl_add_preorder t h]

/-- On a book with the BST invariant for which the end index passed to the
rebuild is below `INT_MAX`, `balance` returns the median tree of the in-order
sequence, cut at that end index. -/
theorem balance_eq_medianTree (book : RecipeBook) (hbst : IsBST book.root)
    (hmax : narrowToInt (sizeMinusOne (inorder book.root).length) < 2 ^ 31 - 1) :
    book.balance =
      some ⟨medianTree (narrowToInt (sizeMinusOne (inorder book.root).length) - 0 + 1).toNat
        (inorder book.root) 0 (narrowToInt (sizeMinusOne (inorder book.root).length))⟩ := by
  have hcol : collectRecipes book.root [] = inorder book.root := by
    rw [collectRecipes_eq, List.nil_append]
  simp only [RecipeBook.balance, RecipeBook.buildBalancedTree, hcol]
  rw [buildBalancedTreeAux_eq_addRecipes _ _ _ _ _ (le_refl _)
    (narrowToInt_sizeMinusOne_lt _) hmax (by omega)]
  show some ((RecipeBook.mk .null).addRecipes _) = _
  rw [addRecipes_preorder _
    (medianTree_isBST _ _ _ _ (le_refl _) (isBST_pairwise _ hbst))]

/-- Arithmetic of the median split: a node whose subtrees hold `a` and `b`
records with `a ≤ b ≤ a + 1`, and whose subtree heights are those of
completely filled levels, is balanced and has such a height itself. -/
theorem median_height_step (a b ha hb : Nat) (hab : a ≤ b) (hba : b ≤ a + 1)
    (ha1 : a < 2 ^ ha) (ha2 : 1 ≤ a → 2 ^ ha ≤ 2 * a) (ha3 : a = 0 → ha = 0)
    (hb1 : b < 2 ^ hb) (hb2 : 1 ≤ b → 2 ^ hb ≤ 2 * b) (hb3 : b = 0 → hb = 0) :
    a + b + 1 < 2 ^ (max ha hb + 1) ∧ 2 ^ (max ha hb + 1) ≤ 2 * (a + b + 1) ∧
      ha ≤ hb + 1 ∧ hb ≤ ha + 1 := by
  have hale : ha ≤ hb := by
    by_cases h0 : a = 0
    · rw [ha3 h0]; exact Nat.zero_le _
    · have h1 : 2 ^ ha < 2 ^ (hb + 1) := by
        have := ha2 (by omega)
        rw [Nat.pow_succ]
        omega
      have := (Nat.pow_lt_pow_iff_right (by norm_num : 1 < 2)).1 h1
      omega
  have hble : hb ≤ ha + 1 := by
    by_cases h0 : b = 0
    · rw [hb3 h0]; exact Nat.zero_le _
    · have h1 : 2 ^ hb ≤ 2 ^ (ha + 1) := by
        have := hb2 (by omega)
        rw [Nat.pow_succ]
        omega
      exact (Nat.pow_le_pow_iff_right (by norm_num : 1 < 2)).1 h1
  have hmax : max ha hb = hb := max_eq_right hale
  have hpb : 2 ^ hb ≤ a + b + 1 := by
    by_cases h0 : b = 0
    · rw [hb3 h0]; simp
    · have := hb2 (by omega)
      omega
  rw [hmax, Nat.pow_succ]
  exact ⟨by omega, by omega, by omega, hble⟩

theorem medianTree_height (depth : Nat) (recipes : List Recipe) (s e : Int) (hs : 0 ≤ s)
    (he : e < recipes.length) (hd : e - s + 1 ≤ depth) :
    (e - s + 1).toNat < 2 ^ height (medianTree depth recipes s e) ∧
      (1 ≤ (e - s + 1).toNat →
        2 ^ height (medianTree depth recipes s e) ≤ 2 * (e - s + 1).toNat) ∧
      ((e - s + 1).toNat = 0 → height (medianTree depth recipes s e) = 0) ∧
      HeightBalanced (medianTree depth recipes s e) := by
  induction depth generalizing s e with
  | zero =>
    have hn : (e - s + 1).toNat = 0 := by omega
    rw [hn]
    simp [medianTree, height, HeightBalanced]
  | succ depth ih =>
    by_cases hse : s > e
    · have hn : (e - s + 1).toNat = 0 := by omega
      rw [hn, medianTree_base _ _ _ _ hse]
      simp [height, HeightBalanced]
    · have hle : s ≤ e := by omega
      have hmidlt : (s + (e - s) / 2).toNat < recipes.length := by omega
      obtain ⟨r, hr⟩ : ∃ r, recipes.get? (s + (e - s) / 2).toNat = some r :=
        ⟨recipes.get ⟨_, hmidlt⟩, List.get?_eq_get hmidlt⟩
      rw [medianTree_step depth recipes s e r hle hr]
      obtain ⟨ha1, ha2, ha3, hbalL⟩ := ih s (s + (e - s) / 2 - 1) hs (by omega) (by omega)
      obtain ⟨hb1, hb2, hb3, hbalR⟩ := ih (s + (e - s) / 2 + 1) e (by omega) he (by omega)
      have hn : (e - s + 1).toNat =
          (s + (e - s) / 2 - 1 - s + 1).toNat + (e - (s + (e - s) / 2 + 1) + 1).toNat + 1 := by
        omega
      obtain ⟨h1, h2, h3, h4⟩ :=
        median_height_step _ _ _ _ (by omega) (by omega) ha1 ha2 ha3 hb1 hb2 hb3
      rw [hn]
      simp only [height, HeightBalanced]
      exact ⟨h1, fun _ => h2, fun h => by omega, ⟨h3, h4⟩, hbalL, hbalR⟩

/-- On every book with the BST invariant and fewer than `2 ^ 31` records,
`balance` returns a book in which the heights of the two subtrees of every
node differ by at most 1. -/
theorem balance_heightBalanced (book : RecipeBook) (hbst : IsBST book.root)
    (hsize : (inorder book.root).length < 2 ^ 31) :
    ∃ after, book.balance = some after ∧ HeightBalanced after.root ∧ IsBST after.root := by
  have hend := narrowToInt_sizeMinusOne_small _ hsize
  have h := balance_eq_medianTree book hbst (by omega)
  have hlt := narrowToInt_sizeMinusOne_lt (inorder book.root).length
  generalize narrowToInt (sizeMinusOne (inorder book.root).length) = e at h hlt
  refine ⟨_, h, ?_, ?_⟩
  · exact (medianTree_height _ _ 0 e (le_refl _) hlt (by omega)).2.2.2
  · exact medianTree_isBST _ _ 0 e (le_refl _) (isBST_pairwise _ hbst)

/-! ## A book too large for the `int` bounds of the rebuild -/

theorem addRecipes_reachable (records : List Recipe) (book : RecipeBook)
    (h : Reachable book) : Reachable (book.addRecipes records) := by
  induction records generalizing book with
  | nil => exact h
  | cons r rs ih => exact ih _ (Reachable.addRecipe book r h)

/-- Every tree with the BST invariant is obtained from the empty book by
`addRecipe` calls alone, adding its records in pre-order. -/
theorem reachable_of_isBST (t : NodePtr) (h : IsBST t) : Reachable ⟨t⟩ := by
  rw [← addRecipes_preorder t h]
  exact addRecipes_reachable _ _ Reachable.empty

theorem completeTree_length (path : List Char) (h : Nat) :
    (inorder (completeTree path h)).length + 1 = 2 ^ h := by
  induction h generalizing path with
  | zero => rfl
  | succ h ih =>
    have h1 := ih (path ++ ['l'])
    have h2 := ih (path ++ ['r'])
    simp only [completeTree, inorder, List.length_append, List.length_cons]
    rw [Nat.pow_succ]
    omega

theorem mem_completeTree (path : List Char) (h : Nat) (x : Recipe)
    (hx : x ∈ inorder (completeTree path h)) :
    ∃ rest, x.name_ = String.mk (path ++ rest) := by
  induction h generalizing path with
  | zero => simp [completeTree, inorder] at hx
  | succ h ih =>
    simp only [completeTree, inorder, List.mem_append, List.mem_cons] at hx
    rcases hx with hx | hx | hx
    · obtain ⟨rest, hr⟩ := ih _ hx
      exact ⟨'l' :: rest, by rw [hr, List.append_assoc]; rfl⟩
    · exact ⟨['m'], by rw [hx]; rfl⟩
    · obtain ⟨rest, hr⟩ := ih _ hx
      exact ⟨'r' :: rest, by rw [hr, List.append_assoc]; rfl⟩

theorem append_lt_append_left (path a b : List Char) (h : a < b) :
    path ++ a < path ++ b := by
  induction path with
  | nil => exact h
  | cons c cs ih => exact List.Lex.cons ih

theorem node_completeTree_isBST (path : List Char) (hl hr : Nat)
    (h1 : IsBST (completeTree (path ++ ['l']) hl))
    (h2 : IsBST (completeTree (path ++ ['r']) hr)) :
    IsBST (.node (pathRecipe path) (completeTree (path ++ ['l']) hl)
      (completeTree (path ++ ['r']) hr)) := by
  refine ⟨?_, ?_, h1, h2⟩
  · intro x hx
    obtain ⟨rest, hr⟩ := mem_completeTree _ _ x hx
    rw [opLt_iff, hr, String.lt_iff_toList_lt]
    show path ++ ['l'] ++ rest < path ++ ['m']
    rw [List.append_assoc]
    exact append_lt_append_left path _ _ (List.Lex.rel (by decide))
  · intro x hx
    obtain ⟨rest, hr⟩ := mem_completeTree _ _ x hx
    rw [opGt_iff, hr, String.lt_iff_toList_lt]
    show path ++ ['m'] < path ++ ['r'] ++ rest
    rw [List.append_assoc]
    exact append_lt_append_left path _ _ (List.Lex.rel (by decide))

theorem completeTree_isBST (path : List Char) (h : Nat) : IsBST (completeTree path h) := by
  induction h generalizing path with
  | zero => trivial
  | succ h ih => exact node_completeTree_isBST path h h (ih _) (ih _)

theorem hugeBook_isBST : IsBST hugeBook.root :=
  node_completeTree_isBST [] 31 1 (completeTree_isBST _ _) (completeTree_isBST _ _)

theorem hugeBook_length : (inorder hugeBook.root).length = 2 ^ 31 + 1 := by
  have h1 := completeTree_length ['l'] 31
  have h2 := completeTree_length ['r'] 1
  show (inorder (completeTree ['l'] 31) ++
    pathRecipe [] :: inorder (completeTree ['r'] 1)).length = 2 ^ 31 + 1
  rw [List.length_append, List.length_cons]
  omega

/-- C3 (as stated) fails: the book of `2 ^ 31 + 1` records with distinct
names, which `addRecipe` alone builds from the empty book, is emptied by
`balance`, because `size() - 1 = 2 ^ 31` narrows to the `int` value
`-2 ^ 31` and the rebuild returns at once on `start > end`; the name `m` of
the root is lost. -/
theorem balance_names_lost :
    Reachable hugeBook ∧ (inorder hugeBook.root).length = 2 ^ 31 + 1 ∧
      hugeBook.balance = some RecipeBook.empty ∧
      "m" ∈ hugeBook.names ∧ "m" ∉ RecipeBook.empty.names := by
  refine ⟨reachable_of_isBST _ hugeBook_isBST, hugeBook_length, ?_, ?_,
    by simp [RecipeBook.names, RecipeBook.empty, inorder]⟩
  · have hlen : (collectRecipes hugeBook.root []).length = 2 ^ 31 + 1 := by
      rw [collectRecipes_eq, List.nil_append]
      exact hugeBook_length
    have hend : narrowToInt (sizeMinusOne (2 ^ 31 + 1)) = -2 ^ 31 := by decide
    simp only [RecipeBook.balance, RecipeBook.buildBalancedTree, hlen, hend]
    exact buildBalancedTreeAux_base _ _ _ _ _ (by decide)
  · apply (mem_names_iff _ _).2
    refine ⟨pathRecipe [], ?_, rfl⟩
    show pathRecipe [] ∈ inorder (completeTree ['l'] 31) ++
      pathRecipe [] :: inorder (completeTree ['r'] 1)
    exact List.mem_append_right _ (List.mem_cons_self _ _)

/-! ## Comparison of recipes -/

/-- C13. Recipe comparison depends on the name only: `a == b` holds exactly
when the names are equal, `a < b` exactly when the name of `a` is
lexicographically less than that of `b`, `a > b` exactly when `b < a`;
exactly one of `a < b`, `a == b`, `a > b` holds; and replacing the difficulty,
description and mastered flag of either side changes none of the three. -/
theorem recipe_comparison_by_name (a b : Recipe) :
    (a.opEq b = true ↔ a.name_ = b.name_) ∧
      (a.opLt b = true ↔ a.name_ < b.name_) ∧
      (a.opGt b = true ↔ b.opLt a = true) ∧
      ((a.opLt b = true ∧ a.opEq b = false ∧ a.opGt b = false) ∨
        (a.opLt b = false ∧ a.opEq b = true ∧ a.opGt b = false) ∨
        (a.opLt b = false ∧ a.opEq b = false ∧ a.opGt b = true)) ∧
      (∀ (d1 d2 : Int) (s1 s2 : String) (m1 m2 : Bool),
        Recipe.opEq ⟨a.name_, d1, s1, m1⟩ ⟨b.name_, d2, s2, m2⟩ = a.opEq b ∧
        Recipe.opLt ⟨a.name_, d1, s1, m1⟩ ⟨b.name_, d2, s2, m2⟩ = a.opLt b ∧
        Recipe.opGt ⟨a.name_, d1, s1, m1⟩ ⟨b.name_, d2, s2, m2⟩ = a.opGt b) := by
  refine ⟨opEq_iff a b, opLt_iff a b, ?_, ?_, fun _ _ _ _ _ _ => ⟨rfl, rfl, rfl⟩⟩
  · rw [opGt_iff, opLt_iff]
  · rcases lt_trichotomy a.name_ b.name_ with h | h | h
    · refine Or.inl ⟨(opLt_iff a b).2 h, ?_, ?_⟩
      · rw [← Bool.not_eq_true, opEq_iff]; exact ne_of_lt h
      · rw [opGt_false_iff]; exact le_of_lt h
    · refine Or.inr (Or.inl ⟨?_, (opEq_iff a b).2 h, ?_⟩)
      · rw [opLt_false_iff, h]
      · rw [opGt_false_iff, h]
    · refine Or.inr (Or.inr ⟨?_, ?_, (opGt_iff a b).2 h⟩)
      · rw [opLt_false_iff]; exact le_of_lt h
      · rw [← Bool.not_eq_true, opEq_iff]; exact ne_of_gt h

/-! ## Loading from a file -/

/-- C11. The file constructor, given the data lines `A` and `A` again, stores
both records, whereas the same two records handed to `addRecipe` leave one:
the second call returns `false` and the first record is the one kept. -/
theorem fromRecords_keeps_duplicate_names :
    (RecipeBook.fromRecords [sampleA, sampleAAgain]).root =
        .node sampleA .null (.node sampleAAgain .null .null) ∧
      (RecipeBook.fromRecords [sampleA, sampleAAgain]).names = ["A", "A"] ∧
      (RecipeBook.empty.addRecipe sampleA).2.addRecipe sampleAAgain =
        (false, ⟨.node sampleA .null .null⟩) := by
  decide

/-! ## Balancing the empty book -/

/-- C17. On the empty book `balance` collects no record; `size() - 1` wraps
to `2 ^ 64 - 1` in `std::size_t` and narrows to the `int` value `-1`;
`buildBalancedTree(recipes, 0, -1)` returns at once with the book as it is,
whatever the vector holds, so no element is read; and `balance` leaves the
empty book empty. -/
theorem balance_empty :
    collectRecipes RecipeBook.empty.root [] = [] ∧
      sizeMinusOne 0 = 2 ^ sizeBits - 1 ∧
      narrowToInt (2 ^ sizeBits - 1) = -1 ∧
      (∀ (book : RecipeBook) (recipes : List Recipe),
        book.buildBalancedTree recipes 0 (-1) = some book) ∧
      RecipeBook.empty.balance = some RecipeBook.empty := by
  refine ⟨rfl, by decide, by decide, ?_, by decide⟩
  intro book recipes
  exact buildBalancedTreeAux_base _ book recipes 0 (-1) (by decide)

/-! ## The order kept by `addRecipe` -/

/-- C14 (as stated) fails: the sample book is in BST order by difficulty, and
after the successful `addRecipe` of `Aa` with difficulty 7 the new record
sits in the left subtree of `B`, whose difficulty is 2, because it was placed
by name. -/
theorem addRecipe_not_by_difficulty :
    IsDifficultyBST sampleBook.root ∧
      sampleBook.addRecipe sampleHard =
        (true, ⟨.node sampleB (.node sampleA .null (.node sampleHard .null .null))
          (.node sampleC .null .null)⟩) ∧
      ¬ IsDifficultyBST (sampleBook.addRecipe sampleHard).2.root := by
  decide

/-- C14 (as amended). After a successful `addRecipe` on a book with the
name-ordered BST invariant, the record is stored and the tree is in BST
order based on name: at every node the records of the left subtree compare
less-than and those of the right subtree greater-than by name, so the
in-order sequence of names is strictly increasing. -/
theorem addRecipe_by_name (book : RecipeBook) (r : Recipe) (hbst : IsBST book.root)
    (hok : (book.addRecipe r).1 = true) :
    IsBST (book.addRecipe r).2.root ∧ r ∈ inorder (book.addRecipe r).2.root ∧
      (book.addRecipe r).2.names.Sorted (· < ·) := by
  have h1 := addRecipe_isBST book r hbst
  refine ⟨h1, ?_, isBST_names_sorted _ h1⟩
  unfold RecipeBook.addRecipe at hok ⊢
  split_ifs at hok ⊢ with h
  exact (mem_inorder_add _ _ _).2 (Or.inl rfl)

/-- Witness for C14 (as amended): `Aa` added to the sample book. -/
theorem addRecipe_by_name_witness :
    IsBST sampleBook.root ∧ (sampleBook.addRecipe sampleHard).1 = true ∧
      (IsBST (sampleBook.addRecipe sampleHard).2.root ∧
        sampleHard ∈ inorder (sampleBook.addRecipe sampleHard).2.root ∧
        (sampleBook.addRecipe sampleHard).2.names.Sorted (· < ·)) ∧
      (sampleBook.addRecipe sampleHard).2.names = ["A", "Aa", "B", "C"] :=
  ⟨by decide, by decide, addRecipe_by_name sampleBook sampleHard (by decide) (by decide),
    by decide⟩

/-! ## Removing a stored record -/

/-- On a tree with the BST invariant, removing by the name of a stored record
`target` reports success and deletes exactly `target` from the in-order
sequence. -/
theorem remove_stored (t : NodePtr) (key target : Recipe) (hbst : IsBST t)
    (hmem : target ∈ inorder t) (hkey : key.name_ = target.name_) :
    (BinarySearchTree.remove t key).1 = true ∧
      ∃ before after, inorder t = before ++ target :: after ∧
        inorder (BinarySearchTree.remove t key).2 = before ++ after := by
  induction t with
  | null => simp [inorder] at hmem
  | node item left right ihl ihr =>
    obtain ⟨hl, hr, hbl, hbr⟩ := hbst
    simp only [inorder, List.mem_append, List.mem_cons] at hmem
    simp only [BinarySearchTree.remove]
    by_cases h1 : item.opEq key = true
    · rw [if_pos h1]
      have hname : item.name_ = target.name_ := by rw [← hkey]; exact (opEq_iff _ _).1 h1
      have hitem : target = item := by
        rcases hmem with h | h | h
        · have := (opLt_iff target item).1 (hl target h)
          rw [hname] at this
          exact absurd this (lt_irrefl _)
        · exact h
        · have := (opGt_iff target item).1 (hr target h)
          rw [hname] at this
          exact absurd this (lt_irrefl _)
      refine ⟨rfl, inorder left, inorder right, by rw [hitem]; rfl, ?_⟩
      exact removeNode_inorder item left right
    · rw [if_neg h1]
      have hne : item.name_ ≠ target.name_ := by
        rw [← hkey]; exact fun h => h1 ((opEq_iff _ _).2 h)
      by_cases h2 : item.opGt key = true
      · rw [if_pos h2]
        have hlt : target.name_ < item.name_ := by rw [← hkey]; exact (opGt_iff _ _).1 h2
        have hin : target ∈ inorder left := by
          rcases hmem with h | h | h
          · exact h
          · rw [h] at hne; exact absurd rfl hne
          · exact absurd hlt (lt_asymm ((opGt_iff target item).1 (hr target h)))
        obtain ⟨hres, before, after, hb, ha⟩ := ihl hbl hin
        refine ⟨hres, before, after ++ item :: inorder right, ?_, ?_⟩
        · simp [inorder, hb]
        · simp [inorder, ha]
      · rw [if_neg h2]
        have hin : target ∈ inorder right := by
          rcases hmem with h | h | h
          · have hlt := (opLt_iff target item).1 (hl target h)
            rw [← hkey] at hlt
            exact absurd ((opGt_iff item key).2 hlt) h2
          · rw [h] at hne; exact absurd rfl hne
          · exact h
        obtain ⟨hres, before, after, hb, ha⟩ := ihr hbr hin
        refine ⟨hres, inorder left ++ item :: before, after, ?_, ?_⟩
        · simp [inorder, hb]
        · simp [inorder, ha]

theorem addReachable_isBST (book : RecipeBook) (h : AddReachable book) : IsBST book.root := by
  induction h with
  | empty => trivial
  | addRecipe book recipe _ ih => exact addRecipe_isBST book recipe ih

theorem removeRecipe_stored (book : RecipeBook) (target : Recipe) (hbst : IsBST book.root)
    (hmem : target ∈ inorder book.root) :
    (book.removeRecipe target.name_).1 = true ∧
      (book.removeRecipe target.name_).2.findRecipe target.name_ = .null ∧
      ∃ before after, inorder book.root = before ++ target :: after ∧
        inorder (book.removeRecipe target.name_).2.root = before ++ after := by
  obtain ⟨hres, before, after, hb, ha⟩ :=
    remove_stored book.root { Recipe.mkDefault with name_ := target.name_ } target hbst hmem rfl
  refine ⟨hres, ?_, before, after, hb, ha⟩
  apply findRecipe_of_not_mem
  intro hin
  obtain ⟨x, hx, hn⟩ := (mem_names_iff _ _).1 hin
  have hx2 : x ∈ before ++ after := by
    have : inorder (book.removeRecipe target.name_).2.root = before ++ after := ha
    rw [← this]; exact hx
  have hp := isBST_pairwise _ hbst
  rw [hb, List.pairwise_append, List.pairwise_cons] at hp
  rcases List.mem_append.1 hx2 with h | h
  · have := hp.2.2 x h target (List.mem_cons_self _ _)
    rw [hn] at this
    exact lt_irrefl _ this
  · have := hp.2.1.1 x h
    rw [hn] at this
    exact lt_irrefl _ this

/-- C12. On every book obtained from the empty book by `addRecipe` calls,
for every stored record `target`: `removeRecipe` with its name returns
`true`, afterwards `findRecipe` with that name returns `nullptr`, and the
in-order sequence is the previous one with `target` deleted, all other
records in place. -/
theorem removeRecipe_correct (book : RecipeBook) (target : Recipe) (hreach : AddReachable book)
    (hmem : target ∈ inorder book.root) :
    (book.removeRecipe target.name_).1 = true ∧
      (book.removeRecipe target.name_).2.findRecipe target.name_ = .null ∧
      ∃ before after, inorder book.root = before ++ target :: after ∧
        inorder (book.removeRecipe target.name_).2.root = before ++ after :=
  removeRecipe_stored book target (addReachable_isBST book hreach) hmem

/-- Witness for C12: `B` removed from the chain built by adding `A`, `B`,
`C`. -/
theorem removeRecipe_correct_witness :
    AddReachable sampleChain ∧ sampleB ∈ inorder sampleChain.root ∧
      ((sampleChain.removeRecipe sampleB.name_).1 = true ∧
        (sampleChain.removeRecipe sampleB.name_).2.findRecipe sampleB.name_ = .null ∧
        ∃ before after, inorder sampleChain.root = before ++ sampleB :: after ∧
          inorder (sampleChain.removeRecipe sampleB.name_).2.root = before ++ after) ∧
      inorder (sampleChain.removeRecipe "B").2.root = [sampleA, sampleC] :=
  have h : AddReachable sampleChain :=
    AddReachable.addRecipe _ sampleC
      (AddReachable.addRecipe _ sampleB
        (AddReachable.addRecipe _ sampleA AddReachable.empty))
  ⟨h, by decide, removeRecipe_correct sampleChain sampleB h (by decide), by decide⟩

/-! ## The indices visited by the rebuild -/

theorem midOrderAux_base (depth : Nat) (s e : Int) (h : s > e) :
    midOrderAux depth s e = [] := by
  unfold midOrderAux
  rw [if_pos h]

theorem midOrderAux_step (depth : Nat) (s e : Int) (h : s ≤ e) :
    midOrderAux (depth + 1) s e =
      (s + (e - s) / 2) ::
        (midOrderAux depth s (s + (e - s) / 2 - 1) ++
          midOrderAux depth (s + (e - s) / 2 + 1) e) := by
  have hdiv : Int.tdiv (e - s) 2 = (e - s) / 2 := Int.tdiv_eq_ediv (by omega) (by omega)
  rw [midOrderAux, if_neg (by omega)]
  simp only [hdiv]

theorem midOrderAux_depth (d1 d2 : Nat) (s e : Int) (h1 : e - s + 1 ≤ d1)
    (h2 : e - s + 1 ≤ d2) : midOrderAux d1 s e = midOrderAux d2 s e := by
  induction d1 generalizing d2 s e with
  | zero => rw [midOrderAux_base 0 s e (by omega), midOrderAux_base d2 s e (by omega)]
  | succ d1 ih =>
    by_cases hse : s > e
    · rw [midOrderAux_base _ s e hse, midOrderAux_base d2 s e hse]
    · obtain ⟨d2', rfl⟩ : ∃ k, d2 = k + 1 := ⟨d2 - 1, by omega⟩
      rw [midOrderAux_step d1 s e (by omega), midOrderAux_step d2' s e (by omega),
        ih d2' s _ (by omega) (by omega), ih d2' _ e (by omega) (by omega)]

theorem midOrder_eq (depth : Nat) (s e : Int) (h : e - s + 1 ≤ depth) :
    midOrderAux depth s e = midOrder s e :=
  midOrderAux_depth _ _ s e h (by omega)

theorem midOrder_step (s e : Int) (h : s ≤ e) :
    midOrder s e =
      (s + (e - s) / 2) ::
        (midOrder s (s + (e - s) / 2 - 1) ++ midOrder (s + (e - s) / 2 + 1) e) := by
  obtain ⟨d, hd⟩ : ∃ d : Nat, (e - s + 1).toNat = d + 1 := ⟨(e - s + 1).toNat - 1, by omega⟩
  show midOrderAux (e - s + 1).toNat s e = _
  rw [hd, midOrderAux_step d s e h, midOrder_eq d s _ (by omega),
    midOrder_eq d _ e (by omega)]

theorem mem_midOrderAux (depth : Nat) (s e i : Int) (h : i ∈ midOrderAux depth s e) :
    s ≤ i ∧ i ≤ e := by
  induction depth generalizing s e with
  | zero =>
    unfold midOrderAux at h
    split_ifs at h <;> simp at h
  | succ depth ih =>
    by_cases hse : s > e
    · rw [midOrderAux_base _ s e hse] at h
      simp at h
    · rw [midOrderAux_step depth s e (by omega)] at h
      simp only [List.mem_cons, List.mem_append] at h
      rcases h with h | h | h
      · omega
      · have := ih _ _ h
        omega
      · have := ih _ _ h
        omega

theorem midOrderAux_complete (depth : Nat) (s e i : Int) (hd : e - s + 1 ≤ depth)
    (h1 : s ≤ i) (h2 : i ≤ e) : i ∈ midOrderAux depth s e := by
  induction depth generalizing s e with
  | zero => omega
  | succ depth ih =>
    rw [midOrderAux_step depth s e (by omega)]
    simp only [List.mem_cons, List.mem_append]
    rcases lt_trichotomy i (s + (e - s) / 2) with h | h | h
    · exact Or.inr (Or.inl (ih _ _ (by omega) h1 (by omega)))
    · exact Or.inl h
    · exact Or.inr (Or.inr (ih _ _ (by omega) (by omega) h2))

theorem midOrderAux_nodup (depth : Nat) (s e : Int) : (midOrderAux depth s e).Nodup := by
  induction depth generalizing s e with
  | zero =>
    unfold midOrderAux
    split_ifs <;> simp
  | succ depth ih =>
    by_cases hse : s > e
    · rw [midOrderAux_base _ s e hse]
      simp
    · rw [midOrderAux_step depth s e (by omega), List.nodup_cons, List.nodup_append]
      refine ⟨?_, ih _ _, ih _ _, ?_⟩
      · intro h
        rcases List.mem_append.1 h with h | h
        · have := mem_midOrderAux _ _ _ _ h
          omega
        · have := mem_midOrderAux _ _ _ _ h
          omega
      · intro i hi hj
        have h1 := mem_midOrderAux _ _ _ _ hi
        have h2 := mem_midOrderAux _ _ _ _ hj
        omega

/-- The rebuild hands to `addRecipe` the elements at the indices of
`midOrderAux`, in that order, and every one of these reads is inside the
vector. -/
theorem buildBalancedTreeLogAux_base (depth : Nat) (state : RecipeBook × List Int)
    (recipes : List Recipe) (s e : Int) (h : s > e) :
    RecipeBook.buildBalancedTreeLogAux depth state recipes s e = some state := by
  unfold RecipeBook.buildBalancedTreeLogAux
  rw [if_pos h]

theorem buildBalancedTreeLogAux_step (depth : Nat) (state : RecipeBook × List Int)
    (recipes : List Recipe) (s e : Int) (r : Recipe) (h : s ≤ e) (hs : 0 ≤ s)
    (hmax : e < 2 ^ 31 - 1) (hr : recipes.get? (s + (e - s) / 2).toNat = some r) :
    RecipeBook.buildBalancedTreeLogAux (depth + 1) state recipes s e =
      (RecipeBook.buildBalancedTreeLogAux depth
          ((state.1.addRecipe r).2, state.2 ++ [s + (e - s) / 2]) recipes s
          (s + (e - s) / 2 - 1)).bind
        (fun afterLeft =>
          RecipeBook.buildBalancedTreeLogAux depth afterLeft recipes
            (s + (e - s) / 2 + 1) e) := by
  have hdiv : Int.tdiv (e - s) 2 = (e - s) / 2 := Int.tdiv_eq_ediv (by omega) (by omega)
  rw [RecipeBook.buildBalancedTreeLogAux]
  rw [if_neg (by omega), intResult_some (e - s) (by omega) (by omega)]
  simp only [hdiv]
  rw [intResult_some (s + (e - s) / 2) (by omega) (by omega)]
  simp only
  rw [if_neg (by omega), hr, intResult_some (s + (e - s) / 2 - 1) (by omega) (by omega),
    intResult_some (s + (e - s) / 2 + 1) (by omega) (by omega)]
  simp only
  cases RecipeBook.buildBalancedTreeLogAux depth
      ((state.1.addRecipe r).2, state.2 ++ [s + (e - s) / 2]) recipes s
      (s + (e - s) / 2 - 1) <;> rfl

/-- The ghost log does not change the computation: forgetting the log of
`buildBalancedTreeLogAux` gives `buildBalancedTreeAux`, on every input, also
where the call does not return. -/
theorem buildBalancedTreeLogAux_fst (depth : Nat) (state : RecipeBook × List Int)
    (recipes : List Recipe) (s e : Int) :
    (RecipeBook.buildBalancedTreeLogAux depth state recipes s e).map Prod.fst =
      RecipeBook.buildBalancedTreeAux depth state.1 recipes s e := by
  induction depth generalizing state s e with
  | zero =>
    unfold RecipeBook.buildBalancedTreeLogAux RecipeBook.buildBalancedTreeAux
    split_ifs <;> rfl
  | succ depth ih =>
    rw [RecipeBook.buildBalancedTreeLogAux, RecipeBook.buildBalancedTreeAux]
    split_ifs with hse
    · rfl
    · cases intResult (e - s) with
      | none => rfl
      | some diff =>
        simp only
        cases intResult (s + Int.tdiv diff 2) with
        | none => rfl
        | some mid =>
          simp only
          split_ifs with hneg
          · rfl
          · cases recipes.get? mid.toNat with
            | none => rfl
            | some recipe =>
              simp only
              cases intResult (mid - 1) with
              | none => rfl
              | some leftEnd =>
                simp only
                have ih1 :
                    (RecipeBook.buildBalancedTreeLogAux depth
                        ((state.1.addRecipe recipe).2, state.2 ++ [mid]) recipes s
                        leftEnd).map Prod.fst =
                      RecipeBook.buildBalancedTreeAux depth (state.1.addRecipe recipe).2
                        recipes s leftEnd := ih _ s leftEnd
                rw [← ih1]
                cases RecipeBook.buildBalancedTreeLogAux depth
                    ((state.1.addRecipe recipe).2, state.2 ++ [mid]) recipes s leftEnd with
                | none => rfl
                | some afterLeft =>
                  simp only [Option.map_some']
                  cases intResult (mid + 1) with
                  | none => rfl
                  | some rightStart => exact ih afterLeft rightStart e

/-- With the span inside the vector and its end below `INT_MAX`, the rebuild
returns, its log grows by the indices of `midOrderAux` in their order, every
one of them was read inside the vector, and the book it returns is the one
obtained by `addRecipe` on the elements read, in that order. -/
theorem buildBalancedTreeLogAux_eq_midOrder (depth : Nat) (state : RecipeBook × List Int)
    (recipes : List Recipe) (s e : Int) (hs : 0 ≤ s) (he : e < recipes.length)
    (hmax : e < 2 ^ 31 - 1) (hd : e - s + 1 ≤ depth) :
    ∃ records, (midOrderAux depth s e).map (fun i => recipes.get? i.toNat) =
        records.map some ∧
      RecipeBook.buildBalancedTreeLogAux depth state recipes s e =
        some (state.1.addRecipes records, state.2 ++ midOrderAux depth s e) := by
  induction depth generalizing state s e with
  | zero =>
    refine ⟨[], ?_, ?_⟩
    · rw [midOrderAux_base 0 s e (by omega)]; rfl
    · rw [buildBalancedTreeLogAux_base 0 state recipes s e (by omega),
        midOrderAux_base 0 s e (by omega), List.append_nil]
      rfl
  | succ depth ih =>
    by_cases hse : s > e
    · refine ⟨[], ?_, ?_⟩
      · rw [midOrderAux_base _ s e hse]; rfl
      · rw [buildBalancedTreeLogAux_base _ state recipes s e hse,
          midOrderAux_base _ s e hse, List.append_nil]
        rfl
    · have hle : s ≤ e := by omega
      have hmidlt : (s + (e - s) / 2).toNat < recipes.length := by omega
      obtain ⟨r, hr⟩ : ∃ r, recipes.get? (s + (e - s) / 2).toNat = some r :=
        ⟨recipes.get ⟨_, hmidlt⟩, List.get?_eq_get hmidlt⟩
      obtain ⟨recL, hL1, hL2⟩ :=
        ih ((state.1.addRecipe r).2, state.2 ++ [s + (e - s) / 2]) s
          (s + (e - s) / 2 - 1) hs (by omega) (by omega) (by omega)
      obtain ⟨recR, hR1, hR2⟩ :=
        ih (((state.1.addRecipe r).2).addRecipes recL,
            (state.2 ++ [s + (e - s) / 2]) ++ midOrderAux depth s (s + (e - s) / 2 - 1))
          (s + (e - s) / 2 + 1) e (by omega) he hmax (by omega)
      refine ⟨r :: (recL ++ recR), ?_, ?_⟩
      · rw [midOrderAux_step depth s e hle]
        simp only [List.map_cons, List.map_append, hL1, hR1, hr]
      · rw [buildBalancedTreeLogAux_step depth state recipes s e r hle hs hmax hr, hL2,
          Option.some_bind, hR2, midOrderAux_step depth s e hle]
        simp [RecipeBook.addRecipes, List.foldl_append]

/-- C18 (as amended). For a vector of `n` records and a call
`buildBalancedTree(recipes, start, end)` with `0 ≤ start`, `end < n` and
`end < INT_MAX`: the call returns; the indices `mid` of its `addRecipe`
calls, logged in the order of the calls, are exactly `midOrder start end`,
each element read inside the vector, and the book returned is the one these
`addRecipe` calls give; every logged index lies in `start .. end`; every
index of `start .. end` is logged exactly once; and the order is the middle
index `start + (end - start) / 2` first, then all of the left part, then all
of the right part. -/
theorem buildBalancedTree_visits (book : RecipeBook) (recipes : List Recipe) (s e : Int)
    (hs : 0 ≤ s) (he : e < recipes.length) (hmax : e < 2 ^ 31 - 1) :
    (∃ records, (midOrder s e).map (fun i => recipes.get? i.toNat) = records.map some ∧
        book.buildBalancedTreeLog recipes s e =
          some (book.addRecipes records, midOrder s e) ∧
        book.buildBalancedTree recipes s e = some (book.addRecipes records)) ∧
      (∀ i ∈ midOrder s e, s ≤ i ∧ i ≤ e ∧ 0 ≤ i ∧ i < recipes.length) ∧
      (∀ i, s ≤ i → i ≤ e → (midOrder s e).count i = 1) ∧
      (s ≤ e → midOrder s e =
        (s + (e - s) / 2) ::
          (midOrder s (s + (e - s) / 2 - 1) ++ midOrder (s + (e - s) / 2 + 1) e)) ∧
      (s > e → midOrder s e = []) := by
  refine ⟨?_, ?_, ?_, midOrder_step s e, ?_⟩
  · obtain ⟨records, h1, h2⟩ :=
      buildBalancedTreeLogAux_eq_midOrder (e - s + 1).toNat (book, []) recipes s e hs he hmax
        (by omega)
    refine ⟨records, h1, ?_, ?_⟩
    · rw [RecipeBook.buildBalancedTreeLog, h2]
      rfl
    · have h3 := buildBalancedTreeLogAux_fst (e - s + 1).toNat (book, []) recipes s e
      rw [h2] at h3
      exact h3.symm
  · intro i hi
    have := mem_midOrderAux _ _ _ _ hi
    omega
  · intro i h1 h2
    exact List.count_eq_one_of_mem (midOrderAux_nodup _ s e)
      (midOrderAux_complete _ s e i (by omega) h1 h2)
  · intro h
    exact midOrderAux_base _ s e h

/-- Witness for C18 (as amended): the four-element vector `A`, `A`, `B`, `C` is visited at
the indices 1, 0, 2, 3. -/
theorem buildBalancedTree_visits_witness :
    (0 : Int) ≤ 0 ∧ (3 : Int) < [sampleA, sampleAAgain, sampleB, sampleC].length ∧
      (3 : Int) < 2 ^ 31 - 1 ∧
      midOrder 0 3 = [1, 0, 2, 3] ∧
      ((∃ records,
          (midOrder 0 3).map
              (fun i => [sampleA, sampleAAgain, sampleB, sampleC].get? i.toNat) =
            records.map some ∧
          RecipeBook.empty.buildBalancedTreeLog [sampleA, sampleAAgain, sampleB, sampleC] 0 3 =
            some (RecipeBook.empty.addRecipes records, midOrder 0 3) ∧
          RecipeBook.empty.buildBalancedTree [sampleA, sampleAAgain, sampleB, sampleC] 0 3 =
            some (RecipeBook.empty.addRecipes records)) ∧
        (∀ i ∈ midOrder 0 3, (0 : Int) ≤ i ∧ i ≤ 3 ∧ 0 ≤ i ∧
          i < [sampleA, sampleAAgain, sampleB, sampleC].length) ∧
        (∀ i, (0 : Int) ≤ i → i ≤ 3 → (midOrder 0 3).count i = 1) ∧
        ((0 : Int) ≤ 3 → midOrder 0 3 =
          (0 + (3 - 0) / 2) ::
            (midOrder 0 (0 + (3 - 0) / 2 - 1) ++ midOrder (0 + (3 - 0) / 2 + 1) 3)) ∧
        ((0 : Int) > 3 → midOrder 0 3 = [])) :=
  ⟨by decide, by decide, by decide, by decide,
    buildBalancedTree_visits RecipeBook.empty [sampleA, sampleAAgain, sampleB, sampleC] 0 3
      (by decide) (by decide) (by decide)⟩

/-- C18 (as stated) fails: on a vector of `2 ^ 31` records the
call `buildBalancedTree(recipes, INT_MAX, INT_MAX)` satisfies `0 ≤ start` and
`end < n`, reads index `INT_MAX` and then evaluates `mid + 1` with
`mid = INT_MAX`, which no `int` holds: the call has no result, and neither
has any call on a non-empty span that ends at `INT_MAX`, whatever the nesting
bound. -/
theorem buildBalancedTree_overflow :
    (0 : Int) ≤ 2 ^ 31 - 1 ∧
      ((2 : Int) ^ 31 - 1 < (List.replicate (2 ^ 31) sampleA).length) ∧
      (List.replicate (2 ^ 31) sampleA).get? ((2 : Int) ^ 31 - 1).toNat = some sampleA ∧
      intResult ((2 ^ 31 - 1) + 1) = none ∧
      (∀ depth start, start ≤ 2 ^ 31 - 1 →
        RecipeBook.buildBalancedTreeAux depth RecipeBook.empty
          (List.replicate (2 ^ 31) sampleA) start (2 ^ 31 - 1) = none) ∧
      RecipeBook.empty.buildBalancedTree (List.replicate (2 ^ 31) sampleA)
        (2 ^ 31 - 1) (2 ^ 31 - 1) = none ∧
      RecipeBook.empty.buildBalancedTreeLog (List.replicate (2 ^ 31) sampleA)
        (2 ^ 31 - 1) (2 ^ 31 - 1) = none := by
  have hlen : (List.replicate (2 ^ 31) sampleA).length = 2 ^ 31 := List.length_replicate _ _
  have hnone : ∀ depth, RecipeBook.buildBalancedTreeAux depth RecipeBook.empty
      (List.replicate (2 ^ 31) sampleA) (2 ^ 31 - 1) (2 ^ 31 - 1) = none :=
    fun depth => buildBalancedTreeAux_intMax depth _ _ _ (le_refl _)
  refine ⟨by norm_num, ?_, ?_, intResult_none _ (by norm_num),
    fun depth start h => buildBalancedTreeAux_intMax depth _ _ start h, hnone _, ?_⟩
  · rw [hlen]; norm_num
  · rw [List.get?_eq_getElem?, List.getElem?_replicate]
    norm_num
  · have h := buildBalancedTreeLogAux_fst ((2 : Int) ^ 31 - 1 - (2 ^ 31 - 1) + 1).toNat
      (RecipeBook.empty, []) (List.replicate (2 ^ 31) sampleA) (2 ^ 31 - 1) (2 ^ 31 - 1)
    rw [hnone] at h
    unfold RecipeBook.buildBalancedTreeLog
    cases hres : RecipeBook.buildBalancedTreeLogAux
        ((2 : Int) ^ 31 - 1 - (2 ^ 31 - 1) + 1).toNat (RecipeBook.empty, [])
        (List.replicate (2 ^ 31) sampleA) (2 ^ 31 - 1) (2 ^ 31 - 1) with
    | none => rfl
    | some v => rw [hres] at h; cases h

/-! ## The in-order sequence of the rebuilt tree -/

theorem take_drop_split (l : List Recipe) (s a b : Nat) (r : Recipe)
    (hr : l.get? (s + a) = some r) :
    List.take (a + (b + 1)) (List.drop s l) =
      List.take a (List.drop s l) ++ r :: List.take b (List.drop (s + a + 1) l) := by
  have hlt : s + a < l.length := by
    by_contra h
    rw [List.get?_eq_none.2 (by omega)] at hr
    cases hr
  have hr2 : l[s + a] = r := by
    rw [List.get?_eq_get hlt] at hr
    exact Option.some.inj hr
  rw [List.take_add, List.drop_drop, List.drop_eq_getElem_cons hlt, List.take_succ_cons, hr2]

/-- The in-order sequence of the median tree on `recipes[s..e]` is that part
of the vector. -/
theorem inorder_medianTree (depth : Nat) (recipes : List Recipe) (s e : Int) (hs : 0 ≤ s)
    (he : e < recipes.length) (hd : e - s + 1 ≤ depth) :
    inorder (medianTree depth recipes s e) =
      (recipes.drop s.toNat).take (e - s + 1).toNat := by
  induction depth generalizing s e with
  | zero =>
    have hn : (e - s + 1).toNat = 0 := by omega
    rw [hn]
    rfl
  | succ depth ih =>
    by_cases hse : s > e
    · have hn : (e - s + 1).toNat = 0 := by omega
      rw [hn, medianTree_base _ _ _ _ hse]
      rfl
    · have hle : s ≤ e := by omega
      have hmidlt : (s + (e - s) / 2).toNat < recipes.length := by omega
      obtain ⟨r, hr⟩ : ∃ r, recipes.get? (s + (e - s) / 2).toNat = some r :=
        ⟨recipes.get ⟨_, hmidlt⟩, List.get?_eq_get hmidlt⟩
      rw [medianTree_step depth recipes s e r hle hr]
      simp only [inorder]
      rw [ih s (s + (e - s) / 2 - 1) hs (by omega) (by omega),
        ih (s + (e - s) / 2 + 1) e (by omega) he (by omega)]
      have h1 : (s + (e - s) / 2).toNat = s.toNat + (s + (e - s) / 2 - 1 - s + 1).toNat := by
        omega
      have h2 : (s + (e - s) / 2 + 1).toNat =
          s.toNat + (s + (e - s) / 2 - 1 - s + 1).toNat + 1 := by omega
      have h3 : (e - s + 1).toNat =
          (s + (e - s) / 2 - 1 - s + 1).toNat + ((e - (s + (e - s) / 2 + 1) + 1).toNat + 1) := by
        omega
      rw [h1] at hr
      rw [h2, h3]
      exact (take_drop_split recipes _ _ _ r hr).symm

/-- The median tree on `recipes[s..e]` looks at the vector inside `s..e`
only. -/
theorem medianTree_congr (depth : Nat) (l1 l2 : List Recipe) (s e : Int) (hs : 0 ≤ s)
    (h : ∀ i : Nat, s ≤ i → (i : Int) ≤ e → l1.get? i = l2.get? i) :
    medianTree depth l1 s e = medianTree depth l2 s e := by
  induction depth generalizing s e with
  | zero => rfl
  | succ depth ih =>
    by_cases hse : s > e
    · rw [medianTree_base _ _ _ _ hse, medianTree_base _ _ _ _ hse]
    · have hmid := h (s + (e - s) / 2).toNat (by omega) (by omega)
      have hL := ih s (s + (e - s) / 2 - 1) hs (fun i h1 h2 => h i h1 (by omega))
      have hR := ih (s + (e - s) / 2 + 1) e (by omega) (fun i h1 h2 => h i (by omega) h2)
      cases hr : l2.get? (s + (e - s) / 2).toNat with
      | none =>
        rw [medianTree_none _ _ _ _ hr, medianTree_none _ _ _ _ (hmid.trans hr)]
      | some r =>
        rw [medianTree_step depth l2 s e r (by omega) hr,
          medianTree_step depth l1 s e r (by omega) (hmid.trans hr), hL, hR]

theorem narrowToInt_lt (x : Nat) : narrowToInt x < 2 ^ 31 := by
  unfold narrowToInt intBits
  norm_num
  split_ifs <;> omega

theorem narrowToInt_sizeMinusOne_le (n : Nat) (h1 : 1 ≤ n) (h2 : n ≤ 2 ^ 31) :
    narrowToInt (sizeMinusOne n) = (n : Int) - 1 := by
  unfold narrowToInt sizeMinusOne sizeBits intBits
  norm_num at h2 ⊢
  split_ifs <;> omega

/-- On a book with the BST invariant and fewer than `2 ^ 31` records,
`balance` returns a book with the same in-order sequence of records. -/
theorem balance_inorder_small (book : RecipeBook) (hbst : IsBST book.root)
    (hsize : (inorder book.root).length < 2 ^ 31) :
    ∃ after, book.balance = some after ∧ inorder after.root = inorder book.root ∧
      IsBST after.root := by
  have hend := narrowToInt_sizeMinusOne_small _ hsize
  have h := balance_eq_medianTree book hbst (by omega)
  have hlt := narrowToInt_sizeMinusOne_lt (inorder book.root).length
  generalize narrowToInt (sizeMinusOne (inorder book.root).length) = e at h hend hlt
  refine ⟨_, h, ?_, medianTree_isBST _ _ 0 e (le_refl _) (isBST_pairwise _ hbst)⟩
  show inorder (medianTree (e - 0 + 1).toNat (inorder book.root) 0 e) = _
  rw [inorder_medianTree _ _ 0 e (le_refl _) hlt (by omega)]
  have h0 : (0 : Int).toNat = 0 := rfl
  rw [h0, List.drop_zero]
  exact List.take_of_length_le (by omega)

/-- On a book with the BST invariant, whenever `balance` returns, a second
`balance` on the book it returned returns that same book again. -/
theorem balance_twice (book once : RecipeBook) (hbst : IsBST book.root)
    (hret : book.balance = some once) : once.balance = some once := by
  have hmax := balance_end_lt book once hret
  have h := balance_eq_medianTree book hbst hmax
  have hlt := narrowToInt_sizeMinusOne_lt (inorder book.root).length
  have hlt2 := narrowToInt_lt (sizeMinusOne (inorder book.root).length)
  generalize narrowToInt (sizeMinusOne (inorder book.root).length) = e at h hmax hlt hlt2
  have honce : once = ⟨medianTree (e - 0 + 1).toNat (inorder book.root) 0 e⟩ :=
    Option.some.inj (hret.symm.trans h)
  rw [honce]
  have hb : IsBST (medianTree (e - 0 + 1).toNat (inorder book.root) 0 e) :=
    medianTree_isBST _ _ 0 e (le_refl _) (isBST_pairwise _ hbst)
  have hin : inorder (medianTree (e - 0 + 1).toNat (inorder book.root) 0 e) =
      (inorder book.root).take (e - 0 + 1).toNat := by
    rw [inorder_medianTree _ _ 0 e (le_refl _) hlt (by omega)]
    rfl
  have hlen : (inorder (medianTree (e - 0 + 1).toNat (inorder book.root) 0 e)).length =
      (e - 0 + 1).toNat := by
    rw [hin, List.length_take]
    omega
  have hend2 : narrowToInt (sizeMinusOne (e - 0 + 1).toNat) < 2 ^ 31 - 1 := by
    rw [narrowToInt_sizeMinusOne_small _ (by omega)]
    omega
  have h2 := balance_eq_medianTree ⟨medianTree (e - 0 + 1).toNat (inorder book.root) 0 e⟩ hb
    (by rw [hlen]; exact hend2)
  rw [h2]
  simp only [hlen]
  by_cases he : e < 0
  · have h0 : (e - 0 + 1).toNat = 0 := by omega
    have h1 : narrowToInt (sizeMinusOne 0) = -1 := by decide
    rw [h0, h1, medianTree_base _ _ 0 (-1) (by decide), medianTree_base _ _ 0 e (by omega)]
  · have he2 : narrowToInt (sizeMinusOne (e - 0 + 1).toNat) = e := by
      rw [narrowToInt_sizeMinusOne_le _ (by omega) (by omega)]
      omega
    have hc : medianTree (e - 0 + 1).toNat
          (inorder (medianTree (e - 0 + 1).toNat (inorder book.root) 0 e)) 0 e =
        medianTree (e - 0 + 1).toNat (inorder book.root) 0 e := by
      apply medianTree_congr _ _ _ 0 e (le_refl _)
      intro i _ hi
      rw [hin, List.get?_eq_getElem?, List.get?_eq_getElem?, List.getElem?_take,
        if_pos (by omega)]
    rw [he2, hc]

theorem balance_of_inorder_eq (book other : RecipeBook)
    (h : inorder other.root = inorder book.root) : other.balance = book.balance := by
  simp only [RecipeBook.balance, collectRecipes_eq, List.nil_append, h, RecipeBook.clear]

/-- A book of exactly `2 ^ 31 + 1` records is emptied by `balance`. -/
theorem balance_of_length (book : RecipeBook)
    (hlen : (inorder book.root).length = 2 ^ 31 + 1) :
    book.balance = some RecipeBook.empty := by
  have hend : narrowToInt (sizeMinusOne (2 ^ 31 + 1)) = -2 ^ 31 := by decide
  simp only [RecipeBook.balance, RecipeBook.buildBalancedTree, collectRecipes_eq,
    List.nil_append, hlen, hend]
  exact buildBalancedTreeAux_base _ _ _ _ _ (by decide)

/-! ## What `balance` keeps -/

/-- C15 (as amended). For every book that satisfies the BST invariant (so
its names are pairwise distinct) and holds fewer than `2 ^ 31` records,
`balance` returns and the in-order sequence of full records afterwards is
identical to the one before: same count, same records with all their
fields, same order. -/
theorem balance_inorder_preserved (book : RecipeBook) (hbst : IsBST book.root)
    (hsize : (inorder book.root).length < 2 ^ 31) :
    ∃ after, book.balance = some after ∧ inorder after.root = inorder book.root := by
  obtain ⟨after, h1, h2, _⟩ := balance_inorder_small book hbst hsize
  exact ⟨after, h1, h2⟩

/-- Witness for C15 (as amended): the chain `A`, `B`, `C` is rebuilt into the
sample book, with the same in-order sequence. -/
theorem balance_inorder_preserved_witness :
    IsBST sampleChain.root ∧ (inorder sampleChain.root).length < 2 ^ 31 ∧
      (∃ after, sampleChain.balance = some after ∧
        inorder after.root = inorder sampleChain.root) ∧
      sampleChain.balance = some sampleBook ∧
      inorder sampleBook.root = [sampleA, sampleB, sampleC] :=
  ⟨by decide, by decide, balance_inorder_preserved sampleChain (by decide) (by decide),
    by decide, by decide⟩

/-- C15 (as stated) fails: the book of `2 ^ 31 + 1` records satisfies the BST
invariant and its names are pairwise distinct, yet `balance` returns the
empty book, because the end index `2 ^ 31` narrows to the `int` value
`-2 ^ 31`; the in-order sequence afterwards is empty and the one before is
not. -/
theorem balance_records_lost :
    IsBST hugeBook.root ∧ hugeBook.names.Nodup ∧
      (inorder hugeBook.root).length = 2 ^ 31 + 1 ∧
      hugeBook.balance = some RecipeBook.empty ∧
      inorder RecipeBook.empty.root = [] ∧
      inorder RecipeBook.empty.root ≠ inorder hugeBook.root := by
  refine ⟨hugeBook_isBST, (isBST_names_sorted _ hugeBook_isBST).nodup, hugeBook_length,
    balance_of_length _ hugeBook_length, rfl, ?_⟩
  intro h
  have h1 := hugeBook_length
  rw [← h] at h1
  exact absurd h1 (by decide)

/-- C19 (as amended). For every book that satisfies the BST invariant (so
its names are pairwise distinct): whenever `balance` returns, a second
`balance` on the book it returned returns the very same tree, shape and
records; `balance` does return when the book holds fewer than `2 ^ 31`
records; and the result of `balance` is the same for any two books with the
same in-order sequence, whatever their shapes. -/
theorem balance_idempotent (book : RecipeBook) (hbst : IsBST book.root) :
    (∀ once, book.balance = some once → once.balance = some once) ∧
      ((inorder book.root).length < 2 ^ 31 →
        ∃ once, book.balance = some once ∧ once.balance = some once) ∧
      (∀ other : RecipeBook, inorder other.root = inorder book.root →
        other.balance = book.balance) := by
  refine ⟨fun once h => balance_twice book once hbst h, ?_,
    fun other h => balance_of_inorder_eq book other h⟩
  intro hsize
  obtain ⟨once, h⟩ := balance_returns book hsize
  exact ⟨once, h, balance_twice book once hbst h⟩

/-- Witness for C19 (as amended): the chain `A`, `B`, `C` is rebuilt into the
sample book, which `balance` returns unchanged. -/
theorem balance_idempotent_witness :
    IsBST sampleChain.root ∧
      ((∀ once, sampleChain.balance = some once → once.balance = some once) ∧
        ((inorder sampleChain.root).length < 2 ^ 31 →
          ∃ once, sampleChain.balance = some once ∧ once.balance = some once) ∧
        (∀ other : RecipeBook, inorder other.root = inorder sampleChain.root →
          other.balance = sampleChain.balance)) ∧
      (inorder sampleChain.root).length < 2 ^ 31 ∧
      sampleChain.balance = some sampleBook ∧ sampleBook.balance = some sampleBook :=
  ⟨by decide, balance_idempotent sampleChain (by decide), by decide, by decide, by decide⟩

/-! ## Mastery points before and after `balance` -/

/-- On books with the BST invariant the mastery points are determined by the
in-order sequence. -/
theorem calculateMasteryPoints_of_inorder (b1 b2 : RecipeBook) (h1 : IsBST b1.root)
    (h2 : IsBST b2.root) (h : inorder b1.root = inorder b2.root) (name : String) :
    b1.calculateMasteryPoints name = b2.calculateMasteryPoints name := by
  have hnames : b1.names = b2.names := by simp [RecipeBook.names, h]
  by_cases hin : name ∈ b1.names
  · obtain ⟨i1, l1, r1, hf1, hn1, hm1⟩ := findRecipe_of_mem b1 name h1 hin
    obtain ⟨i2, l2, r2, hf2, hn2, hm2⟩ := findRecipe_of_mem b2 name h2 (hnames ▸ hin)
    have heq : i1 = i2 :=
      isBST_name_unique _ h1 i1 i2 hm1 (h ▸ hm2) (by rw [hn1, hn2])
    rw [calculateMasteryPoints_of_found b1 name i1 l1 r1 hf1,
      calculateMasteryPoints_of_found b2 name i2 l2 r2 hf2, heq, h]
  · rw [calculateMasteryPoints_of_null b1 name (findRecipe_of_not_mem b1 name hin),
      calculateMasteryPoints_of_null b2 name (findRecipe_of_not_mem b2 name (hnames ▸ hin))]

/-- C20 (as amended). For every book that satisfies the BST invariant (so
its names are pairwise distinct) and holds fewer than `2 ^ 31` records, and
for every name, `calculateMasteryPoints` returns a value, and returns the
same value after `balance` as before. -/
theorem balance_mastery_points (book : RecipeBook) (hbst : IsBST book.root)
    (hsize : (inorder book.root).length < 2 ^ 31) :
    ∃ after, book.balance = some after ∧
      ∀ name, after.calculateMasteryPoints name = book.calculateMasteryPoints name ∧
        ∃ points, book.calculateMasteryPoints name = some points := by
  obtain ⟨after, h1, h2, h3⟩ := balance_inorder_small book hbst hsize
  exact ⟨after, h1, fun name =>
    ⟨calculateMasteryPoints_of_inorder after book h3 hbst h2 name,
      calculateMasteryPoints_returns book name hbst hsize⟩⟩

/-- Witness for C20 (as amended): `C` is worth 2 points in the chain `A`,
`B`, `C` and in the sample book it is rebuilt into. -/
theorem balance_mastery_points_witness :
    IsBST sampleChain.root ∧ (inorder sampleChain.root).length < 2 ^ 31 ∧
      (∃ after, sampleChain.balance = some after ∧
        ∀ name, after.calculateMasteryPoints name = sampleChain.calculateMasteryPoints name ∧
          ∃ points, sampleChain.calculateMasteryPoints name = some points) ∧
      sampleChain.balance = some sampleBook ∧
      sampleChain.calculateMasteryPoints "C" = some 2 ∧
      sampleBook.calculateMasteryPoints "C" = some 2 :=
  ⟨by decide, by decide, balance_mastery_points sampleChain (by decide) (by decide),
    by decide, by decide, by decide⟩

theorem mem_completeTree_difficulty (path : List Char) (h : Nat) (x : Recipe)
    (hx : x ∈ inorder (completeTree path h)) : x.difficulty_level_ = 0 := by
  induction h generalizing path with
  | zero => simp [completeTree, inorder] at hx
  | succ h ih =>
    simp only [completeTree, inorder, List.mem_append, List.mem_cons] at hx
    rcases hx with hx | hx | hx
    · exact ih _ hx
    · rw [hx]; rfl
    · exact ih _ hx

/-- C20 (as stated) fails: in the book of `2 ^ 31 + 1` records, which
satisfies the BST invariant, the root record `m` is worth 1 point; `balance`
returns the empty book, in which `m` is not found and the result is `-1`. -/
theorem balance_mastery_points_lost :
    IsBST hugeBook.root ∧ hugeBook.balance = some RecipeBook.empty ∧
      hugeBook.calculateMasteryPoints "m" = some 1 ∧
      RecipeBook.empty.calculateMasteryPoints "m" = some (-1) := by
  refine ⟨hugeBook_isBST, balance_of_length _ hugeBook_length, ?_, by decide⟩
  have hfound : hugeBook.findRecipe "m" =
      .node (pathRecipe []) (completeTree ['l'] 31) (completeTree ['r'] 1) := by
    show findRecipeHelper
      (.node (pathRecipe []) (completeTree ['l'] 31) (completeTree ['r'] 1)) _ = _
    rw [findRecipeHelper, if_pos (by decide)]
  rw [calculateMasteryPoints_of_found hugeBook "m" _ _ _ hfound]
  have hcount : (inorder hugeBook.root).countP (countsToward (pathRecipe [])) = 0 := by
    rw [List.countP_eq_zero]
    intro x hx
    have hd : x.difficulty_level_ = 0 := by
      have hx2 : x ∈ inorder (completeTree ['l'] 31) ++
          pathRecipe [] :: inorder (completeTree ['r'] 1) := hx
      rcases List.mem_append.1 hx2 with h | h
      · exact mem_completeTree_difficulty _ _ x h
      · rcases List.mem_cons.1 h with h | h
        · rw [h]; rfl
        · exact mem_completeTree_difficulty _ _ x h
    simp [countsToward, hd, pathRecipe]
  rw [hcount]
  decide

/-! ## Repeated names and `balance` -/

/-- On any book of fewer than `2 ^ 31` records, `balance` returns a book
with the BST invariant that stores exactly the names stored before. -/
theorem balance_small_spec (book : RecipeBook)
    (hsize : (inorder book.root).length < 2 ^ 31) :
    ∃ after, book.balance = some after ∧ IsBST after.root ∧
      ∀ name, name ∈ after.names ↔ name ∈ book.names := by
  have hlen : (collectRecipes book.root []).length < 2 ^ 31 := by
    rw [collectRecipes_eq]; simpa using hsize
  have hend := narrowToInt_sizeMinusOne_small _ hlen
  unfold RecipeBook.balance RecipeBook.buildBalancedTree
  obtain ⟨after, h1, h2, h3⟩ :=
    buildBalancedTreeAux_spec
      (narrowToInt (sizeMinusOne (collectRecipes book.root []).length) - 0 + 1).toNat
      book.clear (collectRecipes book.root []) 0
      (narrowToInt (sizeMinusOne (collectRecipes book.root []).length))
      trivial (le_refl _) (narrowToInt_sizeMinusOne_lt _) (by omega) (by omega)
  refine ⟨after, h1, h2, ?_⟩
  intro name
  rw [h3, hend, mem_names_iff book name, collectRecipes_eq, List.nil_append]
  constructor
  · rintro (h | ⟨i, _, _, r, hr, hn⟩)
    · simp [RecipeBook.names, RecipeBook.clear, inorder] at h
    · exact ⟨r, List.get?_mem hr, hn⟩
  · rintro ⟨x, hx, hn⟩
    right
    obtain ⟨i, hget⟩ := List.mem_iff_get?.1 hx
    have hilt : i < (inorder book.root).length := by
      by_contra hcon
      rw [List.get?_eq_none.2 (by omega)] at hget
      exact absurd hget (by simp)
    exact ⟨i, by omega, by omega, x, hget, hn⟩

/-- C16 (as amended). For every book of fewer than `2 ^ 31` records, also
one that stores a name several times, `balance` returns a book that stores
every name of the old book exactly once: the names afterwards are pairwise
distinct, they are the names stored before, and the number of records
afterwards is the number of distinct names in the in-order sequence
before. -/
theorem balance_drops_duplicates (book : RecipeBook)
    (hsize : (inorder book.root).length < 2 ^ 31) :
    ∃ after, book.balance = some after ∧ after.names.Nodup ∧
      (∀ name, name ∈ after.names ↔ name ∈ book.names) ∧
      (inorder after.root).length = book.names.dedup.length := by
  obtain ⟨after, h1, h2, h3⟩ := balance_small_spec book hsize
  have hnodup : after.names.Nodup := (isBST_names_sorted _ h2).nodup
  refine ⟨after, h1, hnodup, h3, ?_⟩
  have hset : after.names.toFinset = book.names.toFinset := by
    ext name
    rw [List.mem_toFinset, List.mem_toFinset]
    exact h3 name
  have hlen : (inorder after.root).length = after.names.length := by
    simp [RecipeBook.names]
  rw [hlen, ← List.toFinset_card_of_nodup hnodup, hset, List.card_toFinset]

/-- Witness for C16 (as amended): of the four records `A`, `A`, `B`, `C`
loaded by the file constructor, `balance` keeps three. -/
theorem balance_drops_duplicates_witness :
    (inorder duplicateBook.root).length < 2 ^ 31 ∧
      (∃ after, duplicateBook.balance = some after ∧ after.names.Nodup ∧
        (∀ name, name ∈ after.names ↔ name ∈ duplicateBook.names) ∧
        (inorder after.root).length = duplicateBook.names.dedup.length) ∧
      duplicateBook.names = ["A", "A", "B", "C"] ∧
      duplicateBook.balance =
        some ⟨.node sampleAAgain .null (.node sampleB .null (.node sampleC .null .null))⟩ :=
  ⟨by decide, balance_drops_duplicates duplicateBook (by decide), by decide, by decide⟩

theorem hugeDuplicateBook_length :
    (inorder hugeDuplicateBook.root).length = 2 ^ 31 + 1 := by
  have h1 := completeTree_length ['l'] 31
  show (inorder (completeTree ['l'] 31) ++
    pathRecipe [] :: inorder (.node rootAgain .null .null)).length = 2 ^ 31 + 1
  have h2 : (inorder (.node rootAgain .null .null)).length = 1 := rfl
  rw [List.length_append, List.length_cons, h2]
  omega

/-- The book with two records named `m` is what the file constructor builds
from its own pre-order sequence. -/
theorem hugeDuplicateBook_producible : Producible hugeDuplicateBook := by
  have hb := hugeBook_isBST
  obtain ⟨hl, _, hbl, _⟩ := hb
  have hleft : IsBST (.node (pathRecipe []) (completeTree ['l'] 31) .null) :=
    ⟨hl, by simp [inorder], hbl, trivial⟩
  have h : hugeDuplicateBook =
      RecipeBook.fromRecords
        (preorder (.node (pathRecipe []) (completeTree ['l'] 31) .null) ++ [rootAgain]) := by
    unfold RecipeBook.fromRecords hugeDuplicateBook
    rw [List.foldl_append, foldl_add_preorder _ hleft]
    simp only [List.foldl_cons, List.foldl_nil]
    rw [BinarySearchTree.add, if_neg (by decide)]
    rfl
  rw [h]
  exact Producible.fromRecords _

/-- C16 (as stated) fails: the book of `2 ^ 31 + 1` records that the file
constructor builds with the name `m` stored twice is emptied by `balance`,
because the end index `2 ^ 31` narrows to the `int` value `-2 ^ 31`; no
record is left, while the in-order sequence before holds at least one
distinct name. -/
theorem balance_drops_every_name :
    Producible hugeDuplicateBook ∧
      pathRecipe [] ∈ inorder hugeDuplicateBook.root ∧
      rootAgain ∈ inorder hugeDuplicateBook.root ∧
      (pathRecipe []).name_ = rootAgain.name_ ∧ pathRecipe [] ≠ rootAgain ∧
      hugeDuplicateBook.balance = some RecipeBook.empty ∧
      (inorder RecipeBook.empty.root).length = 0 ∧
      0 < hugeDuplicateBook.names.dedup.length := by
  have hm1 : pathRecipe [] ∈ inorder hugeDuplicateBook.root := by
    show pathRecipe [] ∈ inorder (completeTree ['l'] 31) ++
      pathRecipe [] :: inorder (.node rootAgain .null .null)
    exact List.mem_append_right _ (List.mem_cons_self _ _)
  have hm2 : rootAgain ∈ inorder hugeDuplicateBook.root := by
    show rootAgain ∈ inorder (completeTree ['l'] 31) ++
      pathRecipe [] :: inorder (.node rootAgain .null .null)
    exact List.mem_append_right _ (List.mem_cons_of_mem _ (by simp [inorder]))
  refine ⟨hugeDuplicateBook_producible, hm1, hm2, by decide, by decide,
    balance_of_length _ hugeDuplicateBook_length, rfl, ?_⟩
  apply List.length_pos_of_mem (a := (pathRecipe []).name_)
  rw [List.mem_dedup]
  exact (mem_names_iff _ _).2 ⟨pathRecipe [], hm1, rfl⟩

/-! ## A book of exactly `2 ^ 31` records -/

theorem mem_completeTree_mastered (path : List Char) (h : Nat) (x : Recipe)
    (hx : x ∈ inorder (completeTree path h)) : x.mastered_ = false := by
  induction h generalizing path with
  | zero => simp [completeTree, inorder] at hx
  | succ h ih =>
    simp only [completeTree, inorder, List.mem_append, List.mem_cons] at hx
    rcases hx with hx | hx | hx
    · exact ih _ hx
    · rw [hx]; rfl
    · exact ih _ hx

theorem fullBook_isBST : IsBST fullBook.root := by
  refine ⟨?_, ?_, completeTree_isBST _ _, trivial⟩
  · intro x hx
    obtain ⟨rest, hr⟩ := mem_completeTree _ _ x hx
    rw [opLt_iff, hr, String.lt_iff_toList_lt]
    show ['l'] ++ rest < ['m']
    exact List.Lex.rel (by decide)
  · intro x hx
    cases hx

theorem fullBook_inorder :
    inorder fullBook.root = inorder (completeTree ['l'] 31) ++ [topRecipe] := rfl

theorem fullBook_length : (inorder fullBook.root).length = 2 ^ 31 := by
  have h1 := completeTree_length ['l'] 31
  rw [fullBook_inorder, List.length_append, List.length_singleton]
  omega

theorem fullBook_mem : topRecipe ∈ inorder fullBook.root := by
  rw [fullBook_inorder]
  exact List.mem_append_right _ (List.mem_singleton_self _)

/-- Every record of the book other than `m` counts toward `m`. -/
theorem fullBook_count :
    (inorder fullBook.root).countP (countsToward topRecipe) = 2 ^ 31 - 1 := by
  have h1 := completeTree_length ['l'] 31
  have hall : (inorder (completeTree ['l'] 31)).countP (countsToward topRecipe) =
      (inorder (completeTree ['l'] 31)).length := by
    rw [List.countP_eq_length]
    intro x hx
    have hd := mem_completeTree_difficulty _ _ x hx
    have hm := mem_completeTree_mastered _ _ x hx
    simp [countsToward, hd, hm, topRecipe]
  have hlast : [topRecipe].countP (countsToward topRecipe) = 0 := by decide
  rw [fullBook_inorder, List.countP_append, hall, hlast]
  omega

/-- In the book of `2 ^ 31` records the counter of `calculateMasteryPoints`
for `m` is incremented past `INT_MAX`. -/
theorem fullBook_calculateMasteryPoints : fullBook.calculateMasteryPoints "m" = none := by
  have hfound : fullBook.findRecipe "m" =
      .node topRecipe (completeTree ['l'] 31) .null := by
    show findRecipeHelper (.node topRecipe (completeTree ['l'] 31) .null) _ = _
    rw [findRecipeHelper, if_pos (by decide)]
  rw [calculateMasteryPoints_of_found fullBook "m" _ _ _ hfound, fullBook_count]
  have hm : topRecipe.mastered_ = false := rfl
  rw [hm, if_neg (by decide)]
  exact intResult_none _ (by norm_num)

/-- On the book of `2 ^ 31` records `balance` passes the end index `INT_MAX`
to the rebuild, which then does not return. -/
theorem fullBook_balance : fullBook.balance = none := by
  have hlen : (collectRecipes fullBook.root []).length = 2 ^ 31 := by
    rw [collectRecipes_eq, List.nil_append]
    exact fullBook_length
  have hend : narrowToInt (sizeMinusOne (2 ^ 31)) = 2 ^ 31 - 1 := by decide
  simp only [RecipeBook.balance, RecipeBook.buildBalancedTree, hlen, hend]
  exact buildBalancedTreeAux_intMax _ _ _ 0 (by norm_num)

/-- C1 (as stated) fails: the book of `2 ^ 31` records satisfies
the BST invariant and stores the unmastered record `m` of difficulty 1 next to
`2 ^ 31 - 1` unmastered records of difficulty 0.  One plus the number of
records that count is `2 ^ 31`, which is no `int`: the counter is incremented
at `INT_MAX` and `calculateMasteryPoints` has no result. -/
theorem calculateMasteryPoints_unmastered_overflow :
    IsBST fullBook.root ∧ (inorder fullBook.root).length = 2 ^ 31 ∧
      topRecipe ∈ inorder fullBook.root ∧ topRecipe.name_ = "m" ∧
      topRecipe.mastered_ = false ∧
      (1 : Int) + (((inorder fullBook.root).countP (countsToward topRecipe) : Nat) : Int) =
        2 ^ 31 ∧
      intResult (2 ^ 31) = none ∧
      fullBook.calculateMasteryPoints "m" = none ∧
      fullBook.calculateMasteryPoints "m" ≠
        some (1 + (((inorder fullBook.root).countP (countsToward topRecipe) : Nat) : Int)) := by
  refine ⟨fullBook_isBST, fullBook_length, fullBook_mem, rfl, rfl, ?_,
    intResult_none _ (le_refl _), fullBook_calculateMasteryPoints, ?_⟩
  · rw [fullBook_count]
    norm_num
  · rw [fullBook_calculateMasteryPoints]
    exact fun h => Option.noConfusion h

/-- C6 (as stated) fails: the book of `2 ^ 31` records with
distinct names is obtained from the empty book by `addRecipe` calls alone; a
`balance` call on it passes `size() - 1 = INT_MAX` as the end index, the
rebuild evaluates `mid + 1` at `mid = INT_MAX`, and the call has no result,
whatever the nesting bound, so nothing holds after this sequence of calls. -/
theorem reachable_balance_overflow :
    Reachable fullBook ∧ (inorder fullBook.root).length = 2 ^ 31 ∧
      narrowToInt (sizeMinusOne (2 ^ 31)) = 2 ^ 31 - 1 ∧
      (∀ depth, RecipeBook.buildBalancedTreeAux depth fullBook.clear
        (collectRecipes fullBook.root []) 0 (2 ^ 31 - 1) = none) ∧
      fullBook.balance = none ∧
      ¬ ∃ after, Reachable after ∧ fullBook.balance = some after := by
  refine ⟨reachable_of_isBST _ fullBook_isBST, fullBook_length, by decide,
    fun depth => buildBalancedTreeAux_intMax depth _ _ 0 (by norm_num),
    fullBook_balance, ?_⟩
  rw [fullBook_balance]
  rintro ⟨after, _, h⟩
  exact Option.noConfusion h

/-- C19 (as stated) fails: the book of `2 ^ 31` records satisfies
the BST invariant with pairwise distinct names; `balance` passes the end
index `INT_MAX` to the rebuild, which evaluates `mid + 1` at `mid = INT_MAX`
and has no result, whatever the nesting bound, so there is no tree obtained
by calling `balance` once or twice. -/
theorem balance_idempotent_overflow :
    IsBST fullBook.root ∧ fullBook.names.Nodup ∧
      (inorder fullBook.root).length = 2 ^ 31 ∧
      (∀ depth, RecipeBook.buildBalancedTreeAux depth fullBook.clear
        (collectRecipes fullBook.root []) 0 (2 ^ 31 - 1) = none) ∧
      fullBook.balance = none ∧
      ¬ ∃ once, fullBook.balance = some once ∧ once.balance = some once := by
  refine ⟨fullBook_isBST, (isBST_names_sorted _ fullBook_isBST).nodup, fullBook_length,
    fun depth => buildBalancedTreeAux_intMax depth _ _ 0 (by norm_num),
    fullBook_balance, ?_⟩
  rw [fullBook_balance]
  rintro ⟨once, h, _⟩
  exact Option.noConfusion h

end RecipeBookModel
